import Mathlib

/-!
# Verification of the Tmbdl bytecode pipeline

A shallow embedding of the Tmbdl bytecode pipeline (`src/bytecode.js`,
`src/vm.js`, the bytecode back-end of `src/interpreter.js`, and the
bytecode serializer) together with proofs and refutations of the
specification claims about it.

JavaScript numbers are modelled as `JsNum`: either an exact rational
(idealising the finite IEEE-754 doubles; no claim here depends on
rounding or overflow) or `nan`.  Host primitives with no arithmetic
content (`TextEncoder`/`TextDecoder`, `DataView` float64 conversion,
`String(number)` formatting, `Number(string)` parsing) are taken as
parameters of the definitions that use them, with the properties the
host guarantees stated as explicit hypotheses where needed.
-/

namespace Tmbdl

/-- A JavaScript number, idealised: an exact rational (standing for the
finite IEEE-754 doubles; no claim depends on rounding or overflow), an
infinity, or NaN.  The rational model has a single zero, identifying
JavaScript `+0` and `-0` (which are `===`-equal and print identically;
no claim distinguishes them). -/
inductive JsN where
  | fin (q : ℚ)
  | inf (pos : Bool)
  | nan
  deriving DecidableEq, Repr

mutual

/-- A runtime value of the Tmbdl VM (the JavaScript values `vm.js`
manipulates).  Arrays and plain objects are reference values; their
contents live in a heap that no claim needs, so they are represented by
their identity alone.  `vundef` is JavaScript `undefined` (the result of
popping an empty stack or reading past the end of an array).  A native
callable carries its name, its arity (−1 = variadic) and the identity of
its host function; the host function table is a parameter of the
semantics. -/
inductive Value where
  | vnull
  | vbool (b : Bool)
  | vnum (n : JsN)
  | vstr (s : String)
  | varr (id : Nat)
  | vobj (id : Nat)
  | vundef
  | vnative (name : String) (arity : Int) (fnId : Nat)
  | vfunc (f : BCFunc)
  | vclosure (c : ClosureV)

/-- `TmbdlBytecodeFunction` from `bytecode.js`: name, arity, upvalue
count and the owned chunk. -/
inductive BCFunc where
  | mk (name : String) (arity : Nat) (upvalueCount : Nat) (chunk : Chunk)

/-- `Chunk` from `bytecode.js`: code bytes, constant pool, line table. -/
inductive Chunk where
  | mk (code : List Nat) (constants : List Value) (lines : List Nat)

/-- `Closure` from `bytecode.js`: a function plus its captured upvalue
references.  Upvalue cells are heap objects identified by a `Nat` id;
`none` is the `null` the upvalue array is initialised with. -/
inductive ClosureV where
  | mk (func : BCFunc) (upvals : List (Option Nat))

end

namespace Chunk

def code : Chunk → List Nat
  | .mk c _ _ => c

def constants : Chunk → List Value
  | .mk _ k _ => k

def lines : Chunk → List Nat
  | .mk _ _ l => l

end Chunk

namespace BCFunc

def name : BCFunc → String
  | .mk n _ _ _ => n

def arity : BCFunc → Nat
  | .mk _ a _ _ => a

def upvalueCount : BCFunc → Nat
  | .mk _ _ u _ => u

def chunk : BCFunc → Chunk
  | .mk _ _ _ c => c

end BCFunc

namespace ClosureV

/-- `Closure.func`. -/
def func : ClosureV → BCFunc
  | .mk f _ => f

/-- `Closure.upvalues`. -/
def upvals : ClosureV → List (Option Nat)
  | .mk _ u => u

/-- Getter `Closure.name`. -/
def name (c : ClosureV) : String := c.func.name

/-- Getter `Closure.arity`. -/
def arity (c : ClosureV) : Nat := c.func.arity

/-- Getter `Closure.chunk`. -/
def chunk (c : ClosureV) : Chunk := c.func.chunk

end ClosureV

/-! ## Opcodes (`bytecode.js`, `OpCode`) -/

namespace Op

def PUSH_CONST : Nat := 0x01
def POP : Nat := 0x02
def DUP : Nat := 0x03
def ADD : Nat := 0x10
def SUB : Nat := 0x11
def MUL : Nat := 0x12
def DIV : Nat := 0x13
def MOD : Nat := 0x14
def NEG : Nat := 0x15
def EQ : Nat := 0x20
def NEQ : Nat := 0x21
def LT : Nat := 0x22
def LTE : Nat := 0x23
def GT : Nat := 0x24
def GTE : Nat := 0x25
def NOT : Nat := 0x30
def LOAD : Nat := 0x40
def STORE : Nat := 0x41
def LOAD_GLOBAL : Nat := 0x42
def STORE_GLOBAL : Nat := 0x43
def JUMP : Nat := 0x50
def JUMP_IF_FALSE : Nat := 0x51
def JUMP_IF_TRUE : Nat := 0x52
def LOOP : Nat := 0x53
def CALL : Nat := 0x60
def RETURN : Nat := 0x61
def MAKE_CLOSURE : Nat := 0x62
def GET_UPVALUE : Nat := 0x63
def SET_UPVALUE : Nat := 0x64
def CLOSE_UPVALUE : Nat := 0x65
def PRINT : Nat := 0x70
def EYEOF : Nat := 0x71
def MAKE_ARRAY : Nat := 0x80
def INDEX_GET : Nat := 0x81
def INDEX_SET : Nat := 0x82
def MAKE_OBJECT : Nat := 0x83
def GET_PROP : Nat := 0x84
def SET_PROP : Nat := 0x85
def LENGTH : Nat := 0x86
def IMPORT : Nat := 0xA0
def EXPORT : Nat := 0xA1
def HALT : Nat := 0xFF

end Op

/-! ## JavaScript number arithmetic

The pieces of host `+`, `/`, `%` the VM relies on.  `inf`/`nan` cover
the non-finite results the VM can produce (`a % 0`, division by a
coerced zero). -/

namespace JsN

/-- JS `a + b` on numbers. -/
def add : JsN → JsN → JsN
  | fin a, fin b => fin (a + b)
  | fin _, inf s => inf s
  | inf s, fin _ => inf s
  | inf s, inf t => if s = t then inf s else nan
  | _, _ => nan

/-- Truncation toward zero, as in the sign rule of JS `%`. -/
def trunc (q : ℚ) : ℚ := if 0 ≤ q then (⌊q⌋ : ℚ) else (⌈q⌉ : ℚ)

/-- JS `a / b` on numbers. -/
def div : JsN → JsN → JsN
  | nan, _ => nan
  | _, nan => nan
  | fin a, fin b =>
      if b = 0 then (if a = 0 then nan else inf (0 < a)) else fin (a / b)
  | fin _, inf _ => fin 0
  | inf s, fin b => if b = 0 then inf s else inf (s = decide (0 ≤ b))
  | inf _, inf _ => nan

/-- JS `a % b` (floating remainder, sign of the dividend). -/
def mod : JsN → JsN → JsN
  | nan, _ => nan
  | _, nan => nan
  | fin a, fin b => if b = 0 then nan else fin (a - b * trunc (a / b))
  | inf _, _ => nan
  | fin a, inf _ => fin a

end JsN

/-- Runtime errors the VM can throw (`throw new Error(...)` sites in
`vm.js`), by kind; the constructor arguments carry the data interpolated
into the corresponding message string.  `unmodeled` flags an execution
path outside the modelled fragment (an opcode or dynamic-typing corner no
claim exercises); it never coincides with a real error of the source. -/
inductive VMErr where
  | divisionByZero
  | arityMismatch (expected got : Nat)
  | undefinedVariable (name : String)
  | cannotCall
  | unknownOpcode (op : Option Nat)
  | hostError (msg : String)
  | internalNoFrame
  | unmodeled
  deriving DecidableEq, Repr

/-! ## Host environment

Host primitives the VM calls into but whose behaviour no claim depends
on: number→string formatting (`String(n)`), string→number parsing
(`Number(s)` / `ToNumber`), the string coercion of arrays and plain
objects (which walks a heap the claims never inspect), the element lists
`formatValue` interpolates for arrays and maps, and the bodies of native
functions (a table indexed by the `fnId` stored in a `vnative` value). -/
structure HostEnv where
  numToStr : JsN → String
  strToNum : String → JsN
  arrStr : Nat → String
  objStr : Nat → String
  fmtArrElems : Nat → String
  fmtObjElems : Nat → String
  natives : Nat → List Value → Except VMErr Value

/-! ## Value coercions (`vm.js` helpers and the host `+` operator) -/

/-- `VM.isTruthy` (`vm.js` 548–552), verbatim: `null` is falsy, a boolean
is itself, and *everything else* — numbers (including `0` and `NaN`),
strings (including `""`), arrays, maps, callables, even `undefined` — is
truthy. -/
def isTruthy : Value → Bool
  | .vnull => false
  | .vbool b => b
  | _ => true

/-- A JS primitive (the possible results of `ToPrimitive` on a VM value). -/
inductive Prim where
  | pnull
  | pundef
  | pbool (b : Bool)
  | pnum (n : JsN)
  | pstr (s : String)

/-- JS `ToPrimitive` on the VM's values: primitives are themselves;
arrays and plain objects stringify via the heap (host parameters);
the `TmbdlBytecodeFunction` and `Closure` classes define `toString`
returning `` `<song ${name}>` ``; a native callable is a plain object. -/
def toPrim (H : HostEnv) : Value → Prim
  | .vnull => .pnull
  | .vundef => .pundef
  | .vbool b => .pbool b
  | .vnum n => .pnum n
  | .vstr s => .pstr s
  | .varr id => .pstr (H.arrStr id)
  | .vobj id => .pstr (H.objStr id)
  | .vnative _ _ _ => .pstr "[object Object]"
  | .vfunc f => .pstr ("<song " ++ f.name ++ ">")
  | .vclosure c => .pstr ("<song " ++ c.name ++ ">")

/-- JS `ToString` on primitives. -/
def primToStr (H : HostEnv) : Prim → String
  | .pnull => "null"
  | .pundef => "undefined"
  | .pbool true => "true"
  | .pbool false => "false"
  | .pnum n => H.numToStr n
  | .pstr s => s

/-- JS `ToNumber` on primitives. -/
def primToNum (H : HostEnv) : Prim → JsN
  | .pnull => .fin 0
  | .pundef => .nan
  | .pbool true => .fin 1
  | .pbool false => .fin 0
  | .pnum n => n
  | .pstr s => H.strToNum s

/-- Whether a primitive is a string. -/
def Prim.isStr : Prim → Bool
  | .pstr _ => true
  | _ => false

/-- JS `ToNumber` on a VM value (`ToPrimitive` then `ToNumber`). -/
def toNumber (H : HostEnv) (v : Value) : JsN := primToNum H (toPrim H v)

/-- The host `+` operator on VM values, exactly as `a + b` behaves in the
`ADD` case of `VM.execute` (`vm.js` 204–209): convert both operands to
primitives; if either is a string, concatenate their `ToString`s;
otherwise add their `ToNumber`s.  It never throws. -/
def jsAdd (H : HostEnv) (a b : Value) : Value :=
  let pa := toPrim H a
  let pb := toPrim H b
  if pa.isStr || pb.isStr then .vstr (primToStr H pa ++ primToStr H pb)
  else .vnum (JsN.add (primToNum H pa) (primToNum H pb))

/-- JS `b === 0`: true exactly for the number zero. -/
def isJsZero : Value → Bool
  | .vnum (.fin q) => q == 0
  | _ => false

/-- `VM.formatValue` (`vm.js` 677–698): the canonical value→string
conversion used by `PRINT`.  Array and map bodies interpolate the
recursively formatted elements, which live in the unmodelled heap and
are supplied by the host environment. -/
def formatValue (H : HostEnv) : Value → String
  | .vnull => "shadow"
  | .vbool true => "goldberry"
  | .vbool false => "sauron"
  | .varr id => "[" ++ H.fmtArrElems id ++ "]"
  | .vclosure c => "<song " ++ c.name ++ ">"
  | .vfunc f => "<song " ++ f.name ++ ">"
  | .vnative n _ _ => "<native song " ++ n ++ ">"
  | .vobj id => "\x7b" ++ H.fmtObjElems id ++ "\x7d"
  | .vnum n => H.numToStr n
  | .vstr s => s
  | .vundef => "undefined"

/-! ## VM state -/

/-- An entry of the VM's open-upvalue list.  The JS list links `Upvalue`
objects; here an entry is the object's identity (`id`, allocated from a
counter in the state) together with its open `location`.  Entries of the
open list are open by construction (their `location` is not `null`);
closing moves the id into the closed-cell store. -/
structure UpvEntry where
  id : Nat
  location : Nat
  deriving DecidableEq, Repr

/-- `CallFrame` (`vm.js` 12–24). -/
structure Frame where
  closure : ClosureV
  ip : Nat
  stackOffset : Nat
  returnSlot : Nat

/-- The VM's mutable state (`vm.js` 30–44).  The stack is bottom-first
(index 0 at the head, push appends at the end), matching JS absolute
indices.  `frames` holds the *current* frame at the head (the JS array
keeps it last).  `closedUpvalues` maps the id of each closed `Upvalue`
object to the value copied into its cell.  `output` logs `PRINT` lines.
Globals are modelled for string names only (the only names generated
chunks produce). -/
structure VMState where
  stack : List Value
  globals : List (String × Value)
  frames : List Frame
  openUpvalues : List UpvEntry
  closedUpvalues : List (Nat × Value)
  nextUpvId : Nat
  output : List String

/-- JS `Array.prototype.pop`: last element (or `undefined`) and the rest. -/
def popV (st : List Value) : Value × List Value :=
  ((st.getLast?).getD .vundef, st.dropLast)

/-- JS `stack[i]` read: `undefined` out of bounds. -/
def readSlot (st : List Value) (i : Nat) : Value :=
  (st.get? i).getD (.vundef)

/-- JS `stack[i] = v`: writing past the end extends the array (the holes
read back as `undefined`). -/
def writeSlot (st : List Value) (i : Nat) (v : Value) : List Value :=
  if i < st.length then st.set i v
  else st ++ List.replicate (i - st.length) .vundef ++ [v]

/-- JS `stack.length = n`: truncates, or extends with holes. -/
def setLength (st : List Value) (n : Nat) : List Value :=
  st.take n ++ List.replicate (n - st.length) (.vundef)

/-- `VM.captureUpvalue` (`vm.js` 616–641): walk the open list (sorted by
descending location) past entries with a larger location; reuse an
existing entry with the same location; otherwise splice in a fresh
`Upvalue` (identity `nid`).  Returns the upvalue, the new list, and the
next fresh id. -/
def captureUpvalue : List UpvEntry → Nat → Nat → UpvEntry × List UpvEntry × Nat
  | [], idx, nid => (⟨nid, idx⟩, [⟨nid, idx⟩], nid + 1)
  | u :: rest, idx, nid =>
      if idx < u.location then
        let r := captureUpvalue rest idx nid
        (r.1, u :: r.2.1, r.2.2)
      else if u.location = idx then (u, u :: rest, nid)
      else (⟨nid, idx⟩, ⟨nid, idx⟩ :: u :: rest, nid + 1)

/-- `VM.closeUpvalues` (`vm.js` 644–650): close and unlink every upvalue
from the head of the open list whose location is ≥ `lastIndex`, copying
`stack[location]` into its cell; stop at the first head below the
threshold.  Returns the remaining open list and the closed cells. -/
def closeUpvalues (stack : List Value) (lastIndex : Nat) :
    List UpvEntry → List (Nat × Value) → List UpvEntry × List (Nat × Value)
  | [], closed => ([], closed)
  | u :: rest, closed =>
      if lastIndex ≤ u.location then
        closeUpvalues stack lastIndex rest (closed ++ [(u.id, readSlot stack u.location)])
      else (u :: rest, closed)

/-- `VM.callClosure` (`vm.js` 603–613): arity check, then push a frame
whose locals window starts at the arguments and whose `returnSlot` is the
callee's stack slot. -/
def callClosure (s : VMState) (c : ClosureV) (argCount : Nat) : Except VMErr VMState :=
  if argCount ≠ c.arity then .error (.arityMismatch c.arity argCount)
  else
    .ok { s with
          frames := { closure := c, ip := 0,
                      stackOffset := s.stack.length - argCount,
                      returnSlot := s.stack.length - argCount - 1 } :: s.frames }

/-- `VM.callValue` (`vm.js` 559–601), bytecode path (`argsArray = null`,
i.e. the `CALL` opcode): a native pops its arguments and the callee and
is invoked directly, with **no arity check of any kind**; a closure goes
through `callClosure`; a bare `TmbdlBytecodeFunction` is wrapped in a
fresh closure first; anything else throws `Cannot call`.  (The
`argsArray` branch is the native→VM re-entry bridge, unused by the
claims.) -/
def callValue (H : HostEnv) (s : VMState) (callee : Value) (argCount : Nat) :
    Except VMErr VMState :=
  match callee with
  | .vnative _ _ fnId =>
      let args := List.replicate (argCount - s.stack.length) Value.vundef ++
        s.stack.drop (s.stack.length - argCount)
      let rest := s.stack.take (s.stack.length - argCount - 1)
      match H.natives fnId args with
      | .error e => .error e
      | .ok result => .ok { s with stack := rest ++ [result] }
  | .vclosure c => callClosure s c argCount
  | .vfunc f => callClosure s ⟨f, List.replicate f.upvalueCount none⟩ argCount
  | _ => .error .cannotCall

/-- Read the value of the `Upvalue` object with identity `id`
(`Upvalue.get`, `bytecode.js`): `stack[location]` while it is open (it is
then in the open list), its closed cell afterwards. -/
def upvGet (s : VMState) (id : Nat) : Value :=
  match s.openUpvalues.find? (·.id = id) with
  | some u => readSlot s.stack u.location
  | none => ((s.closedUpvalues.find? (·.1 = id)).map (·.2)).getD (.vundef)

/-- Write through the `Upvalue` object with identity `id`
(`Upvalue.set`, `bytecode.js`). -/
def upvSet (s : VMState) (id : Nat) (v : Value) : VMState :=
  match s.openUpvalues.find? (·.id = id) with
  | some u => { s with stack := writeSlot s.stack u.location v }
  | none =>
      { s with closedUpvalues :=
          s.closedUpvalues.map (fun p => if p.1 = id then (p.1, v) else p) }

/-- The upvalue-descriptor loop of `MAKE_CLOSURE` (`vm.js` 364–375): read
`count` `(isLocal, index)` byte pairs; a local descriptor captures
`stackOffset + index`, a non-local one copies the enclosing closure's
upvalue.  Returns the new closure's upvalue ids, the ip after the
descriptors, and the updated open list and id counter. -/
def readClosureUpvals (code : List Nat) (stackOffset : Nat) (enclosing : List (Option Nat))
    (stack : List Value) :
    Nat → Nat → List UpvEntry → Nat → List (Option Nat) × Nat × List UpvEntry × Nat
  | 0, ip, opens, nid => ([], ip, opens, nid)
  | n + 1, ip, opens, nid =>
      let isLocal := (code.get? ip).getD 0
      let index := (code.get? (ip + 1)).getD 0
      if isLocal ≠ 0 then
        let cap := captureUpvalue opens (stackOffset + index) nid
        let rest := readClosureUpvals code stackOffset enclosing stack n (ip + 2) cap.2.1 cap.2.2
        (some cap.1.id :: rest.1, rest.2)
      else
        let v := (enclosing.get? index).getD none
        let rest := readClosureUpvals code stackOffset enclosing stack n (ip + 2) opens nid
        (v :: rest.1, rest.2)

/-- Result of one dispatch of the `VM.execute` loop: continue in a new
state, or terminate with a result (`RETURN` from the last frame, or
`HALT`). -/
inductive StepOut where
  | next (s : VMState)
  | halt (v : Value)

/-- One iteration of the fetch–decode–execute loop of `VM.execute`
(`vm.js` 183–526).  The opcodes the claims exercise are modelled
case-for-case from the source switch; the remaining cases (`SUB`…`GTE`,
`NEG`, `EYEOF`, collections, properties, modules), and dynamic-typing
corners that cannot arise from generated chunks (a non-string global
name, a non-function `MAKE_CLOSURE` constant, a `null` upvalue slot),
fall to the `unmodeled` error.  The default case of the source switch
(an unknown opcode, or the `undefined` fetched past the end of the code)
is `unknownOpcode`. -/
def step (H : HostEnv) (s : VMState) : Except VMErr StepOut :=
  match s.frames with
  | [] => .error .internalNoFrame
  | fr :: restFrames =>
    let code := fr.closure.chunk.code
    let consts := fr.closure.chunk.constants
    match code.get? fr.ip with
    | none => .error (.unknownOpcode none)
    | some op =>
      if op = Op.PUSH_CONST then
        match code.get? (fr.ip + 1) with
        | none => .error (.unknownOpcode none)
        | some index =>
            .ok (.next { s with stack := s.stack ++ [(consts.get? index).getD .vundef],
                                frames := { fr with ip := fr.ip + 2 } :: restFrames })
      else if op = Op.POP then
        .ok (.next { s with stack := s.stack.dropLast,
                            frames := { fr with ip := fr.ip + 1 } :: restFrames })
      else if op = Op.DUP then
        .ok (.next { s with stack := s.stack ++ [(s.stack.getLast?).getD .vundef],
                            frames := { fr with ip := fr.ip + 1 } :: restFrames })
      else if op = Op.ADD then
        let b := (popV s.stack).1
        let st1 := (popV s.stack).2
        let a := (popV st1).1
        let st2 := (popV st1).2
        .ok (.next { s with stack := st2 ++ [jsAdd H a b],
                            frames := { fr with ip := fr.ip + 1 } :: restFrames })
      else if op = Op.DIV then
        let b := (popV s.stack).1
        let st1 := (popV s.stack).2
        let a := (popV st1).1
        let st2 := (popV st1).2
        if isJsZero b then .error .divisionByZero
        else
          .ok (.next { s with stack := st2 ++ [.vnum (JsN.div (toNumber H a) (toNumber H b))],
                              frames := { fr with ip := fr.ip + 1 } :: restFrames })
      else if op = Op.MOD then
        let b := (popV s.stack).1
        let st1 := (popV s.stack).2
        let a := (popV st1).1
        let st2 := (popV st1).2
        .ok (.next { s with stack := st2 ++ [.vnum (JsN.mod (toNumber H a) (toNumber H b))],
                            frames := { fr with ip := fr.ip + 1 } :: restFrames })
      else if op = Op.NOT then
        let v := (popV s.stack).1
        let st1 := (popV s.stack).2
        .ok (.next { s with stack := st1 ++ [.vbool (!isTruthy v)],
                            frames := { fr with ip := fr.ip + 1 } :: restFrames })
      else if op = Op.LOAD then
        match code.get? (fr.ip + 1) with
        | none => .error (.unknownOpcode none)
        | some slot =>
            .ok (.next { s with stack := s.stack ++ [readSlot s.stack (fr.stackOffset + slot)],
                                frames := { fr with ip := fr.ip + 2 } :: restFrames })
      else if op = Op.STORE then
        match code.get? (fr.ip + 1) with
        | none => .error (.unknownOpcode none)
        | some slot =>
            .ok (.next { s with
              stack := writeSlot s.stack (fr.stackOffset + slot) ((s.stack.getLast?).getD .vundef),
              frames := { fr with ip := fr.ip + 2 } :: restFrames })
      else if op = Op.LOAD_GLOBAL then
        match code.get? (fr.ip + 1) with
        | none => .error (.unknownOpcode none)
        | some nameIndex =>
            match (consts.get? nameIndex).getD .vundef with
            | .vstr name =>
                match s.globals.lookup name with
                | none => .error (.undefinedVariable name)
                | some v =>
                    .ok (.next { s with stack := s.stack ++ [v],
                                        frames := { fr with ip := fr.ip + 2 } :: restFrames })
            | _ => .error .unmodeled
      else if op = Op.STORE_GLOBAL then
        match code.get? (fr.ip + 1) with
        | none => .error (.unknownOpcode none)
        | some nameIndex =>
            match (consts.get? nameIndex).getD .vundef with
            | .vstr name =>
                let v := (s.stack.getLast?).getD .vundef
                let g :=
                  if s.globals.any (·.1 == name) then
                    s.globals.map (fun p => if p.1 == name then (name, v) else p)
                  else s.globals ++ [(name, v)]
                .ok (.next { s with globals := g,
                                    frames := { fr with ip := fr.ip + 2 } :: restFrames })
            | _ => .error .unmodeled
      else if op = Op.JUMP then
        match code.get? (fr.ip + 1) with
        | none => .error (.unknownOpcode none)
        | some offset =>
            .ok (.next { s with frames := { fr with ip := fr.ip + 2 + offset } :: restFrames })
      else if op = Op.JUMP_IF_FALSE then
        match code.get? (fr.ip + 1) with
        | none => .error (.unknownOpcode none)
        | some offset =>
            let ip' := if isTruthy ((s.stack.getLast?).getD .vundef)
                       then fr.ip + 2 else fr.ip + 2 + offset
            .ok (.next { s with frames := { fr with ip := ip' } :: restFrames })
      else if op = Op.JUMP_IF_TRUE then
        match code.get? (fr.ip + 1) with
        | none => .error (.unknownOpcode none)
        | some offset =>
            let ip' := if isTruthy ((s.stack.getLast?).getD .vundef)
                       then fr.ip + 2 + offset else fr.ip + 2
            .ok (.next { s with frames := { fr with ip := ip' } :: restFrames })
      else if op = Op.LOOP then
        match code.get? (fr.ip + 1) with
        | none => .error (.unknownOpcode none)
        | some offset =>
            .ok (.next { s with frames := { fr with ip := fr.ip + 2 - offset } :: restFrames })
      else if op = Op.CALL then
        match code.get? (fr.ip + 1) with
        | none => .error .cannotCall
        | some argCount =>
            let callee := if argCount + 1 ≤ s.stack.length
                          then readSlot s.stack (s.stack.length - 1 - argCount)
                          else .vundef
            match callValue H { s with frames := { fr with ip := fr.ip + 2 } :: restFrames }
                callee argCount with
            | .error e => .error e
            | .ok s' => .ok (.next s')
      else if op = Op.MAKE_CLOSURE then
        match code.get? (fr.ip + 1) with
        | none => .error (.unknownOpcode none)
        | some funcIndex =>
            match (consts.get? funcIndex).getD .vundef with
            | .vfunc f =>
                let r := readClosureUpvals code fr.stackOffset fr.closure.upvals s.stack
                  f.upvalueCount (fr.ip + 2) s.openUpvalues s.nextUpvId
                .ok (.next { s with
                  stack := s.stack ++ [.vclosure ⟨f, r.1⟩],
                  openUpvalues := r.2.2.1,
                  nextUpvId := r.2.2.2,
                  frames := { fr with ip := r.2.1 } :: restFrames })
            | _ => .error .unmodeled
      else if op = Op.GET_UPVALUE then
        match code.get? (fr.ip + 1) with
        | none => .error (.unknownOpcode none)
        | some slot =>
            match (fr.closure.upvals.get? slot).getD none with
            | some id =>
                .ok (.next { s with stack := s.stack ++ [upvGet s id],
                                    frames := { fr with ip := fr.ip + 2 } :: restFrames })
            | none => .error .unmodeled
      else if op = Op.SET_UPVALUE then
        match code.get? (fr.ip + 1) with
        | none => .error (.unknownOpcode none)
        | some slot =>
            match (fr.closure.upvals.get? slot).getD none with
            | some id =>
                let s' := upvSet s id ((s.stack.getLast?).getD .vundef)
                .ok (.next { s' with frames := { fr with ip := fr.ip + 2 } :: restFrames })
            | none => .error .unmodeled
      else if op = Op.CLOSE_UPVALUE then
        let r := closeUpvalues s.stack (s.stack.length - 1) s.openUpvalues s.closedUpvalues
        .ok (.next { s with stack := s.stack.dropLast,
                            openUpvalues := r.1, closedUpvalues := r.2,
                            frames := { fr with ip := fr.ip + 1 } :: restFrames })
      else if op = Op.RETURN then
        let result := (popV s.stack).1
        let st1 := (popV s.stack).2
        let r := closeUpvalues st1 fr.stackOffset s.openUpvalues s.closedUpvalues
        match restFrames with
        | [] => .ok (.halt result)
        | _ =>
            .ok (.next { s with
              stack := setLength st1 fr.returnSlot ++ [result],
              openUpvalues := r.1, closedUpvalues := r.2,
              frames := restFrames })
      else if op = Op.PRINT then
        let v := (popV s.stack).1
        let st1 := (popV s.stack).2
        .ok (.next { s with stack := st1, output := s.output ++ [formatValue H v],
                            frames := { fr with ip := fr.ip + 1 } :: restFrames })
      else if op = Op.HALT then
        .ok (.halt (if s.stack.isEmpty then .vnull else (s.stack.getLast?).getD .vundef))
      else if op = Op.SUB ∨ op = Op.MUL ∨ op = Op.NEG ∨ op = Op.EQ ∨ op = Op.NEQ ∨
              op = Op.LT ∨ op = Op.LTE ∨ op = Op.GT ∨ op = Op.GTE ∨ op = Op.EYEOF ∨
              op = Op.MAKE_ARRAY ∨ op = Op.INDEX_GET ∨ op = Op.INDEX_SET ∨
              op = Op.MAKE_OBJECT ∨ op = Op.GET_PROP ∨ op = Op.SET_PROP ∨
              op = Op.LENGTH ∨ op = Op.IMPORT ∨ op = Op.EXPORT then
        .error .unmodeled
      else .error (.unknownOpcode (some op))

/-! ## Code generator (`interpreter.js`, `CodeGenerator`)

The claims about the generator concern identifier-using expressions,
short-circuit logical expressions and function declarations; the AST
subset below covers every construct those claims quantify over
(literals, identifiers, binary and logical operators, calls, expression
and print statements, variable declarations, assignments, blocks,
returns and nested function declarations).  Each visitor is translated
case-for-case from the corresponding `visit…` method. -/

/-- Binary operators lowered by `visitBinaryExpression`. -/
inductive BinOp where
  | add | sub | mul | div | mod | eq | neq | lt | lte | gt | gte
  deriving DecidableEq, Repr

/-- The opcode `visitBinaryExpression` emits for each operator. -/
def BinOp.toOp : BinOp → Nat
  | .add => Op.ADD
  | .sub => Op.SUB
  | .mul => Op.MUL
  | .div => Op.DIV
  | .mod => Op.MOD
  | .eq => Op.EQ
  | .neq => Op.NEQ
  | .lt => Op.LT
  | .lte => Op.LTE
  | .gt => Op.GT
  | .gte => Op.GTE

/-- Logical operators: `with` (AND) and `either` (OR). -/
inductive LogOp where
  | lwith | leither
  deriving DecidableEq, Repr

mutual

/-- Expression nodes (the `line` field is the node's source line, used
for the chunk's line table). -/
inductive Expr where
  | numberLit (value : ℚ) (line : Nat)
  | stringLit (value : String) (line : Nat)
  | booleanLit (value : Bool) (line : Nat)
  | nullLit (line : Nat)
  | ident (name : String) (line : Nat)
  | binary (op : BinOp) (left right : Expr) (line : Nat)
  | logical (op : LogOp) (left right : Expr) (line : Nat)
  | call (callee : Expr) (args : List Expr) (line : Nat)

/-- Statement nodes. -/
inductive Stmt where
  | exprStmt (e : Expr) (line : Nat)
  | printStmt (e : Expr) (line : Nat)
  | varDecl (name : String) (value : Expr) (line : Nat)
  | assign (name : String) (value : Expr) (line : Nat)
  | block (stmts : List Stmt)
  | ret (value : Option Expr) (line : Nat)
  | funcDecl (name : String) (params : List String) (body : List Stmt) (line : Nat)

end

/-- `{ name, depth, isCaptured }` — an entry of a compiler context's
`locals`. -/
structure LocalV where
  name : String
  depth : Nat
  isCaptured : Bool
  deriving DecidableEq, Repr

/-- `{ index, isLocal }` — an upvalue descriptor of a compiler context. -/
structure UpvDesc where
  index : Nat
  isLocal : Bool
  deriving DecidableEq, Repr

/-- `CompilerContext` (`interpreter.js` 695–703): the chunk under
construction with the lexical bookkeeping for one function.  (The
context's name only labels the chunk for disassembly and carries no
semantics, so it is not modelled.) -/
structure CtxFrame where
  chunk : Chunk
  locals : List LocalV
  upvalues : List UpvDesc
  scopeDepth : Nat

/-- The generator state: `this.current` is the head of `contexts`, the
`enclosing` chain its tail.  (`loopStack` is used only by the loop
visitors, outside the modelled subset.) -/
structure GenSt where
  contexts : List CtxFrame

/-- `Chunk.write` (`bytecode.js` 103–107): append one byte with its line. -/
def Chunk.write (c : Chunk) (byte line : Nat) : Chunk :=
  ⟨c.code ++ [byte], c.constants, c.lines ++ [line]⟩

/-- JS `===` restricted to constant-pool use (`addConstant`'s
`findIndex(c => c === value)`): structural on the primitives, `false` on
`NaN` (as `NaN === NaN` is), and `false` on reference values — the
generator only ever interns freshly created function objects, which are
identical to no pooled constant. -/
def jsStrictEqV : Value → Value → Bool
  | .vnull, .vnull => true
  | .vbool a, .vbool b => a == b
  | .vnum (.fin a), .vnum (.fin b) => a == b
  | .vnum (.inf a), .vnum (.inf b) => a == b
  | .vstr a, .vstr b => a == b
  | _, _ => false

/-- `Chunk.addConstant` (`bytecode.js` 110–117): reuse an `===`-equal
pool entry, else append.  Returns the index and the updated chunk. -/
def Chunk.addConstant (c : Chunk) (v : Value) : Nat × Chunk :=
  match c.constants.findIdx? (fun k => jsStrictEqV k v) with
  | some i => (i, c)
  | none => (c.constants.length, ⟨c.code, c.constants ++ [v], c.lines⟩)

/-- Apply `f` to the current compiler context (`this.current`). -/
def GenSt.mapCur (st : GenSt) (f : CtxFrame → CtxFrame) : GenSt :=
  match st.contexts with
  | [] => st
  | c :: t => ⟨f c :: t⟩

/-- The current context's chunk code (empty when no context exists). -/
def GenSt.code (st : GenSt) : List Nat :=
  match st.contexts with
  | [] => []
  | c :: _ => c.chunk.code

/-- The current context's constant pool. -/
def GenSt.consts (st : GenSt) : List Value :=
  match st.contexts with
  | [] => []
  | c :: _ => c.chunk.constants

/-- `CodeGenerator.emit`: write one byte to the current chunk. -/
def GenSt.emit (st : GenSt) (byte line : Nat) : GenSt :=
  st.mapCur fun c => { c with chunk := c.chunk.write byte line }

/-- `CodeGenerator.emitWithOperand`. -/
def GenSt.emitWithOperand (st : GenSt) (opcode operand line : Nat) : GenSt :=
  (st.emit opcode line).emit operand line

/-- `this.chunk.addConstant(value)` on the current context: the interned
index and the updated state. -/
def GenSt.addConstCur (st : GenSt) (v : Value) : Nat × GenSt :=
  match st.contexts with
  | [] => (0, st)
  | c :: t =>
      let r := c.chunk.addConstant v
      (r.1, ⟨{ c with chunk := r.2 } :: t⟩)

/-- `CodeGenerator.emitConstant`: intern the value, then
`PUSH_CONST index`. -/
def GenSt.emitConstant (st : GenSt) (v : Value) (line : Nat) : GenSt :=
  let r := st.addConstCur v
  r.2.emitWithOperand Op.PUSH_CONST r.1 line

/-- `CodeGenerator.emitJump`: emit the opcode with a `0xFF` placeholder;
return the state and the offset of the jump instruction. -/
def GenSt.emitJump (st : GenSt) (opcode line : Nat) : GenSt × Nat :=
  ((st.emit opcode line).emit 0xFF line, st.code.length)

/-- `CodeGenerator.patchJump`: back-patch the operand with the distance
from the instruction after the jump to the current end of code. -/
def GenSt.patchJump (st : GenSt) (offset : Nat) : GenSt :=
  st.mapCur fun c =>
    { c with chunk := ⟨c.chunk.code.set (offset + 1) (c.chunk.code.length - offset - 2),
                       c.chunk.constants, c.chunk.lines⟩ }

/-- `CodeGenerator.addLocal`. -/
def GenSt.addLocal (st : GenSt) (name : String) : GenSt :=
  st.mapCur fun c =>
    { c with locals := c.locals ++ [{ name := name, depth := c.scopeDepth, isCaptured := false }] }

/-- Index of the *last* local with the given name (the source scans
`locals` from the highest slot down), or `none` (the source's `-1`). -/
def lastIdxOf (l : List LocalV) (name : String) : Option Nat :=
  match l with
  | [] => none
  | x :: rest =>
      match lastIdxOf rest name with
      | some i => some (i + 1)
      | none => if x.name == name then some 0 else none

/-- `CodeGenerator.resolveLocal` on the current context. -/
def GenSt.resolveLocal (st : GenSt) (name : String) : Option Nat :=
  match st.contexts with
  | [] => none
  | c :: _ => lastIdxOf c.locals name

/-- Set `isCaptured := true` on the local at the given slot. -/
def markCaptured : List LocalV → Nat → List LocalV
  | [], _ => []
  | x :: rest, 0 => { x with isCaptured := true } :: rest
  | x :: rest, n + 1 => x :: markCaptured rest n

/-- `CodeGenerator.addUpvalue`: reuse an existing `(index, isLocal)`
descriptor or append one; returns the upvalue slot and the updated
list. -/
def addUpvalue (ups : List UpvDesc) (index : Nat) (isLocal : Bool) : Nat × List UpvDesc :=
  match ups.findIdx? (fun u => u.index == index && u.isLocal == isLocal) with
  | some i => (i, ups)
  | none => (ups.length, ups ++ [⟨index, isLocal⟩])

/-- `CodeGenerator.resolveUpvalue` (`interpreter.js` 791–817), acting on
the context chain (head = current): if the name is a local of the
immediately enclosing context, mark it captured and add a local upvalue;
otherwise resolve recursively in the grandparent and chain a non-local
upvalue; `none` means global.  Returns the upvalue slot and the updated
chain. -/
def resolveUpvalue : List CtxFrame → String → Option Nat × List CtxFrame
  | [], _ => (none, [])
  | [cur], _ => (none, [cur])
  | cur :: enc :: rest, name =>
      match lastIdxOf enc.locals name with
      | some i =>
          let enc' := { enc with locals := markCaptured enc.locals i }
          let r := addUpvalue cur.upvalues i true
          (some r.1, { cur with upvalues := r.2 } :: enc' :: rest)
      | none =>
          match resolveUpvalue (enc :: rest) name with
          | (some u, encRest') =>
              let r := addUpvalue cur.upvalues u false
              (some r.1, { cur with upvalues := r.2 } :: encRest')
          | (none, encRest') => (none, cur :: encRest')

/-- `CodeGenerator.beginScope`. -/
def GenSt.beginScope (st : GenSt) : GenSt :=
  st.mapCur fun c => { c with scopeDepth := c.scopeDepth + 1 }

/-- The pop loop of `endScope`, on the *reversed* locals list (the
source pops from the end of `locals`; recursing over the reversal is the
same loop): while the innermost local is deeper than the (already
decremented) scope depth, drop it, emitting `CLOSE_UPVALUE` if it was
captured and `POP` otherwise. -/
def endScopeRev (depth : Nat) (ch : Chunk) : List LocalV → Chunk × List LocalV
  | [] => (ch, [])
  | l :: rest =>
      if l.depth > depth then
        endScopeRev depth (ch.write (if l.isCaptured then Op.CLOSE_UPVALUE else Op.POP) 0) rest
      else (ch, l :: rest)

/-- The pop loop of `endScope` on the locals list itself. -/
def endScopeAux (depth : Nat) (ch : Chunk) (ls : List LocalV) : Chunk × List LocalV :=
  let r := endScopeRev depth ch ls.reverse
  (r.1, r.2.reverse)

/-- `CodeGenerator.endScope`. -/
def GenSt.endScope (st : GenSt) : GenSt :=
  st.mapCur fun c =>
    let depth := c.scopeDepth - 1
    let r := endScopeAux depth c.chunk c.locals
    { c with chunk := r.1, locals := r.2, scopeDepth := depth }

/-- The current context's `scopeDepth`. -/
def GenSt.scopeDepth (st : GenSt) : Nat :=
  match st.contexts with
  | [] => 0
  | c :: _ => c.scopeDepth

/-- The closing emission sequence of `visitFunctionDeclaration`
(`interpreter.js` 1357–1370), run in the restored outer context: intern
the function object and emit `MAKE_CLOSURE` with its index, emit the
`(isLocal, index)` descriptor byte pairs, then intern the function name
and emit `STORE_GLOBAL` with its index followed by `POP`. -/
def funcDeclTail (st : GenSt) (fv : Value) (ups : List UpvDesc) (name : String)
    (line : Nat) : GenSt :=
  let r := st.addConstCur fv
  let st8 := r.2.emitWithOperand Op.MAKE_CLOSURE r.1 line
  let st9 := ups.foldl
    (fun s u => (s.emit (if u.isLocal then 1 else 0) line).emit u.index line) st8
  let r2 := st9.addConstCur (.vstr name)
  (r2.2.emitWithOperand Op.STORE_GLOBAL r2.1 line).emit Op.POP line

mutual

/-- `CodeGenerator.visit…` for expressions (`visitNumberLiteral`,
`visitStringLiteral`, `visitBooleanLiteral`, `visitNullLiteral`,
`visitIdentifier`, `visitBinaryExpression`, `visitLogicalExpression`,
`visitCallExpression`), translated case-for-case. -/
def genExpr : Expr → GenSt → GenSt
  | .numberLit v line, st => st.emitConstant (.vnum (.fin v)) line
  | .stringLit v line, st => st.emitConstant (.vstr v) line
  | .booleanLit v line, st => st.emitConstant (.vbool v) line
  | .nullLit line, st => st.emitConstant .vnull line
  | .ident name line, st =>
      match st.resolveLocal name with
      | some slot => st.emitWithOperand Op.LOAD slot line
      | none =>
          match resolveUpvalue st.contexts name with
          | (some u, ctxs') => (GenSt.mk ctxs').emitWithOperand Op.GET_UPVALUE u line
          | (none, ctxs') =>
              let r := (GenSt.mk ctxs').addConstCur (.vstr name)
              r.2.emitWithOperand Op.LOAD_GLOBAL r.1 line
  | .binary op l r line, st =>
      let st1 := genExpr l st
      let st2 := genExpr r st1
      st2.emit op.toOp line
  | .logical .lwith l r line, st =>
      let st1 := genExpr l st
      let j := st1.emitJump Op.JUMP_IF_FALSE line
      let st2 := j.1.emit Op.POP line
      let st3 := genExpr r st2
      st3.patchJump j.2
  | .logical .leither l r line, st =>
      let st1 := genExpr l st
      let elseJ := st1.emitJump Op.JUMP_IF_FALSE line
      let endJ := elseJ.1.emitJump Op.JUMP line
      let st2 := endJ.1.patchJump elseJ.2
      let st3 := st2.emit Op.POP line
      let st4 := genExpr r st3
      st4.patchJump endJ.2
  | .call callee args line, st =>
      let st1 := genExpr callee st
      let st2 := genExprs args st1
      (st2.emit Op.CALL line).emit args.length line

/-- Visit each call argument in order. -/
def genExprs : List Expr → GenSt → GenSt
  | [], st => st
  | e :: rest, st => genExprs rest (genExpr e st)

/-- `CodeGenerator.visit…` for statements (`visitExpressionStatement`,
`visitPrintStatement`, `visitVariableDeclaration`, `visitAssignment`,
`visitBlockStatement`, `visitReturnStatement`,
`visitFunctionDeclaration`), translated case-for-case. -/
def genStmt : Stmt → GenSt → GenSt
  | .exprStmt e line, st => (genExpr e st).emit Op.POP line
  | .printStmt e line, st => (genExpr e st).emit Op.PRINT line
  | .varDecl name value line, st =>
      let st1 := genExpr value st
      if 0 < st1.scopeDepth then st1.addLocal name
      else
        let r := st1.addConstCur (.vstr name)
        (r.2.emitWithOperand Op.STORE_GLOBAL r.1 line).emit Op.POP line
  | .assign name value line, st =>
      let st1 := genExpr value st
      match st1.resolveLocal name with
      | some slot => st1.emitWithOperand Op.STORE slot line
      | none =>
          match resolveUpvalue st1.contexts name with
          | (some u, ctxs') => (GenSt.mk ctxs').emitWithOperand Op.SET_UPVALUE u line
          | (none, ctxs') =>
              let r := (GenSt.mk ctxs').addConstCur (.vstr name)
              r.2.emitWithOperand Op.STORE_GLOBAL r.1 line
  | .block stmts, st => (genStmts stmts st.beginScope).endScope
  | .ret value line, st =>
      let st1 := match value with
                 | some e => genExpr e st
                 | none => st.emitConstant .vnull line
      st1.emit Op.RETURN line
  | .funcDecl name params body line, st =>
      let fnCtx : CtxFrame := { chunk := ⟨[], [], []⟩, locals := [], upvalues := []
                                scopeDepth := 0 }
      let st1 : GenSt := ⟨fnCtx :: st.contexts⟩
      let st2 := st1.beginScope
      let st3 := params.foldl (fun s p => s.addLocal p) st2
      let st4 := genStmts body st3
      let st5 := st4.emitConstant .vnull 0
      let st6 := st5.emit Op.RETURN 0
      match st6.contexts with
      | [] => st6
      | fnCtx' :: outer =>
          let func : BCFunc := ⟨name, params.length, fnCtx'.upvalues.length, fnCtx'.chunk⟩
          funcDeclTail (GenSt.mk outer) (.vfunc func) fnCtx'.upvalues name line

/-- Visit a statement list in order (function bodies, block bodies). -/
def genStmts : List Stmt → GenSt → GenSt
  | [], st => st
  | s :: rest, st => genStmts rest (genStmt s st)

end

/-- The flat byte sequence of the upvalue descriptors
`visitFunctionDeclaration` emits after `MAKE_CLOSURE`: `(isLocal, index)`
pairs in upvalue-slot order. -/
def descBytes : List UpvDesc → List Nat
  | [] => []
  | u :: rest => (if u.isLocal then 1 else 0) :: u.index :: descBytes rest

/-- How a visitor may affect an *enclosing* compiler context: its chunk
is untouched, its scope depth is untouched, its locals keep their names
and depths (only `isCaptured` may be marked), and its upvalue list is
only appended to. -/
def FramePres (f f' : CtxFrame) : Prop :=
  f'.chunk = f.chunk ∧ f'.scopeDepth = f.scopeDepth ∧
  f'.locals.map (fun l => (l.name, l.depth)) = f.locals.map (fun l => (l.name, l.depth)) ∧
  f.upvalues <+: f'.upvalues

/-- How a visitor call transforms the generator state: the current
context's code and constant pool are only extended (patches land inside
the newly emitted region), and every enclosing context satisfies
`FramePres`. -/
def GenPres (st st' : GenSt) : Prop :=
  match st.contexts, st'.contexts with
  | [], [] => True
  | c :: t, c' :: t' =>
      c.chunk.code <+: c'.chunk.code ∧
      c.chunk.constants <+: c'.chunk.constants ∧
      List.Forall₂ FramePres t t'
  | _, _ => False

/-! ## Bytecode serializer (`BytecodeSerializer` / `BytecodeDeserializer`)

The container is byte-oriented; bytes are `Nat` values < 256 (the JS
buffer is a `Uint8Array`).  Two host conversions have no arithmetic
content and are taken as parameters: the IEEE-754 float64 ↔ 8-byte
conversion of `DataView` (`setFloat64`/`getFloat64`, big-endian) and the
UTF-8 string codec (`TextEncoder`/`TextDecoder`).  The round-trip
properties the host guarantees for them are hypotheses of the round-trip
theorem, carried by the well-formedness predicate. -/

/-- Host byte codecs used by the serializer. -/
structure SerEnv where
  f64enc : JsN → List Nat
  f64dec : List Nat → JsN
  strEnc : String → List Nat
  strDec : List Nat → String

/-- `MAGIC` — "TMBDL". -/
def MAGIC : List Nat := [0x54, 0x4D, 0x42, 0x44, 0x4C]

/-- `VERSION`. -/
def VERSION : Nat := 1

def TYPE_NULL : Nat := 0x00
def TYPE_BOOL : Nat := 0x01
def TYPE_NUMBER : Nat := 0x02
def TYPE_STRING : Nat := 0x03
def TYPE_FUNCTION : Nat := 0x04

/-- `writeByte`: one byte, masked `& 0xFF`. -/
def writeByte (b : Nat) : List Nat := [b % 256]

/-- `writeUint16`, big-endian.  For `0 ≤ v < 2^32` this equals the JS
`(v >> 8) & 0xFF, v & 0xFF` pair. -/
def writeUint16 (v : Nat) : List Nat := [v / 2 ^ 8 % 256, v % 256]

/-- `writeUint32`, big-endian (agrees with the JS shift-and-mask bytes
for `0 ≤ v < 2^32`). -/
def writeUint32 (v : Nat) : List Nat :=
  [v / 2 ^ 24 % 256, v / 2 ^ 16 % 256, v / 2 ^ 8 % 256, v % 256]

/-- `writeFloat64`: the 8 bytes `DataView.setFloat64`/`getUint8` produce,
each fed through `writeByte`. -/
def writeFloat64 (E : SerEnv) (n : JsN) : List Nat := (E.f64enc n).map (· % 256)

/-- `writeString`: u32 byte length, then the UTF-8 bytes through
`writeByte`. -/
def writeString (E : SerEnv) (s : String) : List Nat :=
  writeUint32 (E.strEnc s).length ++ (E.strEnc s).map (· % 256)

/-- The concatenated `writeUint16` of each line-table entry. -/
def writeLines : List Nat → List Nat
  | [] => []
  | l :: rest => writeUint16 l ++ writeLines rest

/-- The error of `writeConstant`'s final `else` branch
(`Cannot serialize constant of type …`). -/
inductive SerErr where
  | cannotSerialize
  deriving DecidableEq, Repr

mutual

/-- The number of entries `collectFunctions`/`addFunction` registers for
a function: itself plus, recursively, every `TmbdlBytecodeFunction`
constant of its chunk.  (The JS map deduplicates by object identity; the
generator interns each freshly created function object in exactly one
pool, so on its output the dedup check never fires and the count is the
tree size computed here.) -/
def funcCount : BCFunc → Nat
  | .mk _ _ _ (.mk _ consts _) => 1 + constsFuncCount consts

/-- The functions registered for the constants of one pool. -/
def constsFuncCount : List Value → Nat
  | [] => 0
  | .vfunc f :: rest => funcCount f + constsFuncCount rest
  | _ :: rest => constsFuncCount rest

end

/-- `writeConstant` for one constant pool, threading the next function
index to assign (`functionMap` enumerates functions in depth-first
preorder, so the children of a pool occupy consecutive index blocks in
pool order).  Unserializable values (arrays, maps, closures, natives,
`undefined`) throw. -/
def serConstants (E : SerEnv) : List Value → Nat → Except SerErr (List Nat × Nat)
  | [], nextIdx => .ok ([], nextIdx)
  | .vnull :: rest, nextIdx => do
      let r ← serConstants E rest nextIdx
      .ok (writeByte TYPE_NULL ++ r.1, r.2)
  | .vbool b :: rest, nextIdx => do
      let r ← serConstants E rest nextIdx
      .ok (writeByte TYPE_BOOL ++ writeByte (if b then 1 else 0) ++ r.1, r.2)
  | .vnum n :: rest, nextIdx => do
      let r ← serConstants E rest nextIdx
      .ok (writeByte TYPE_NUMBER ++ writeFloat64 E n ++ r.1, r.2)
  | .vstr s :: rest, nextIdx => do
      let r ← serConstants E rest nextIdx
      .ok (writeByte TYPE_STRING ++ writeString E s ++ r.1, r.2)
  | .vfunc f :: rest, nextIdx => do
      let r ← serConstants E rest (nextIdx + funcCount f)
      .ok (writeByte TYPE_FUNCTION ++ writeUint32 nextIdx ++ r.1, r.2)
  | _ :: _, _ => .error .cannotSerialize

/-- `writeFunction`: metadata, constant pool, code bytes, line table. -/
def serFunction (E : SerEnv) (f : BCFunc) (selfIdx : Nat) : Except SerErr (List Nat) :=
  match f with
  | .mk name arity up ch => do
      let rc ← serConstants E ch.constants (selfIdx + 1)
      .ok (writeString E name ++ writeUint16 arity ++ writeUint16 up ++
        writeUint32 ch.constants.length ++ rc.1 ++
        writeUint32 ch.code.length ++ ch.code.map (· % 256) ++
        writeUint32 ch.lines.length ++ writeLines ch.lines)

mutual

/-- The bytes of a function and (after it, in index order) of every
function reachable from its constant pool — the order in which
`serialize` writes `functionMap`'s entries. -/
def serTree (E : SerEnv) : BCFunc → Nat → Except SerErr (List Nat)
  | .mk name arity up (.mk code consts lines), selfIdx => do
      let body ← serFunction E (.mk name arity up (.mk code consts lines)) selfIdx
      let kids ← serForest E consts (selfIdx + 1)
      .ok (body ++ kids)

/-- The function bodies for the subtrees rooted at the
`TmbdlBytecodeFunction` constants of one pool. -/
def serForest (E : SerEnv) : List Value → Nat → Except SerErr (List Nat)
  | [], _ => .ok []
  | .vfunc f :: rest, i => do
      let a ← serTree E f i
      let b ← serForest E rest (i + funcCount f)
      .ok (a ++ b)
  | _ :: rest, i => serForest E rest i

end

/-- `BytecodeSerializer.serialize`: header, function count, the function
bodies in index order (main — a dummy `__main__` wrapper around the
chunk — is index 0), then the main index (always 0). -/
def serialize (E : SerEnv) (ch : Chunk) : Except SerErr (List Nat) := do
  let body ← serTree E (.mk "__main__" 0 0 ch) 0
  .ok (MAGIC ++ writeByte VERSION ++ writeUint32 (funcCount (.mk "__main__" 0 0 ch)) ++
    body ++ writeUint32 0)

/-! ### Deserializer -/

/-- Deserializer failures: the three `throw` sites (`bad magic number`,
`Unsupported bytecode version`, `Unknown constant type`), the JS
`TypeError` raised by `this.functions[mainIndex].chunk` when the index
is out of range, and `corrupt` — the value model's stand-in for a fixup
whose function-reference graph is not well-founded, which the mutable JS
fixup would tie into a cyclic object graph no chunk *value* represents
(serializer output always references strictly later indices and never
reaches this case). -/
inductive DErr where
  | badMagic
  | badVersion (v : Option Nat)
  | unknownConstType (t : Option Nat)
  | typeError
  | corrupt
  deriving DecidableEq, Repr

/-- `readByte`: consume one byte; past the end of the buffer JS returns
`undefined` (`none`) and keeps advancing. -/
def readByte : List Nat → Option Nat × List Nat
  | [] => (none, [])
  | b :: rest => (some b, rest)

/-- JS coercion of a possibly-`undefined` byte inside `<<`, `|`, or
`Uint8Array`/`setUint8` element conversion: `undefined` becomes 0. -/
def orZero : Option Nat → Nat
  | none => 0
  | some n => n

/-- `readBytes count`. -/
def readBytes : Nat → List Nat → List (Option Nat) × List Nat
  | 0, buf => ([], buf)
  | n + 1, buf =>
      let r := readByte buf
      let r2 := readBytes n r.2
      (r.1 :: r2.1, r2.2)

/-- `readUint16`: `(high << 8) | low` (with `undefined → 0`). -/
def readUint16 (buf : List Nat) : Nat × List Nat :=
  let r1 := readByte buf
  let r2 := readByte r1.2
  (orZero r1.1 * 2 ^ 8 + orZero r2.1, r2.2)

/-- The signed 32-bit value a JS bitwise expression yields. -/
def toInt32 (x : Nat) : Int :=
  if x % 2 ^ 32 < 2 ^ 31 then ((x % 2 ^ 32 : Nat) : Int)
  else ((x % 2 ^ 32 : Nat) : Int) - 2 ^ 32

/-- `readUint32`: `(b1 << 24) | (b2 << 16) | (b3 << 8) | b4` — a signed
32-bit result in JS (with `undefined → 0`); for byte inputs this equals
`toInt32` of the big-endian sum. -/
def readUint32 (buf : List Nat) : Int × List Nat :=
  let r1 := readByte buf
  let r2 := readByte r1.2
  let r3 := readByte r2.2
  let r4 := readByte r3.2
  (toInt32 (orZero r1.1 * 2 ^ 24 + orZero r2.1 * 2 ^ 16 + orZero r3.1 * 2 ^ 8 + orZero r4.1),
   r4.2)

/-- `readFloat64`: 8 bytes into `DataView.setUint8` (`undefined → 0`),
then `getFloat64`. -/
def readFloat64 (E : SerEnv) (buf : List Nat) : JsN × List Nat :=
  let r := readBytes 8 buf
  (E.f64dec (r.1.map orZero), r.2)

/-- `readString`: u32 length (a negative length reads zero bytes, as the
JS loop does), bytes into `new Uint8Array` (`undefined → 0`), then
`TextDecoder.decode`. -/
def readString (E : SerEnv) (buf : List Nat) : String × List Nat :=
  let r1 := readUint32 buf
  let r2 := readBytes r1.1.toNat r1.2
  (E.strDec (r2.1.map orZero), r2.2)

/-- A constant as `readConstant` first materialises it: a function
constant is a pending index, resolved after all functions are read. -/
inductive RawConst where
  | rnull
  | rbool (b : Bool)
  | rnum (n : JsN)
  | rstr (s : String)
  | rfn (idx : Int)

/-- `readConstant`: tag dispatch.  For `TYPE_BOOL` the payload test is
`readByte() !== 0`, so a truncated payload (`undefined`) reads as
`true`.  An unknown tag — including the `undefined` read past the end of
the input — throws. -/
def readConstant (E : SerEnv) (buf : List Nat) : Except DErr (RawConst × List Nat) :=
  let r := readByte buf
  if r.1 = some TYPE_NULL then .ok (.rnull, r.2)
  else if r.1 = some TYPE_BOOL then
    let rb := readByte r.2
    .ok (.rbool (match rb.1 with | some 0 => false | _ => true), rb.2)
  else if r.1 = some TYPE_NUMBER then
    let rn := readFloat64 E r.2
    .ok (.rnum rn.1, rn.2)
  else if r.1 = some TYPE_STRING then
    let rs := readString E r.2
    .ok (.rstr rs.1, rs.2)
  else if r.1 = some TYPE_FUNCTION then
    let ri := readUint32 r.2
    .ok (.rfn ri.1, ri.2)
  else .error (.unknownConstType r.1)

/-- `readConstant` over a counted pool. -/
def readConstants (E : SerEnv) : Nat → List Nat → Except DErr (List RawConst × List Nat)
  | 0, buf => .ok ([], buf)
  | n + 1, buf => do
      let r ← readConstant E buf
      let r2 ← readConstants E n r.2
      .ok (r.1 :: r2.1, r2.2)

/-- The code-byte loop of `readFunction`.  (A read past the end of the
buffer pushes JS `undefined` into the code array; the value model maps
it to 0 — no claim exercises an input truncated inside a code
section.) -/
def readCodeBytes : Nat → List Nat → List Nat × List Nat
  | 0, buf => ([], buf)
  | n + 1, buf =>
      let r := readByte buf
      let r2 := readCodeBytes n r.2
      (orZero r.1 :: r2.1, r2.2)

/-- The line-table loop of `readFunction`. -/
def readLines : Nat → List Nat → List Nat × List Nat
  | 0, buf => ([], buf)
  | n + 1, buf =>
      let r := readUint16 buf
      let r2 := readLines n r.2
      (r.1 :: r2.1, r2.2)

/-- A function as `readFunction` materialises it (function-reference
constants still pending). -/
structure RawFunc where
  name : String
  arity : Nat
  upvalueCount : Nat
  consts : List RawConst
  code : List Nat
  lines : List Nat

/-- `readFunction`. -/
def readFunction (E : SerEnv) (buf : List Nat) : Except DErr (RawFunc × List Nat) := do
  let rname := readString E buf
  let rarity := readUint16 rname.2
  let rup := readUint16 rarity.2
  let rcc := readUint32 rup.2
  let rconsts ← readConstants E rcc.1.toNat rcc.2
  let rcl := readUint32 rconsts.2
  let rcode := readCodeBytes rcl.1.toNat rcl.2
  let rll := readUint32 rcode.2
  let rlines := readLines rll.1.toNat rll.2
  .ok (⟨rname.1, rarity.1, rup.1, rconsts.1, rcode.1, rlines.1⟩, rlines.2)

/-- The function-reading loop of `deserialize`. -/
def readFunctions (E : SerEnv) : Nat → List Nat → Except DErr (List RawFunc × List Nat)
  | 0, buf => .ok ([], buf)
  | n + 1, buf => do
      let r ← readFunction E buf
      let r2 ← readFunctions E n r.2
      .ok (r.1 :: r2.1, r2.2)

/-- One constant of the fixup pass, given the resolver `rf` for
referenced functions and the function-table length: an in-range function
reference resolves through `rf`, an out-of-range one becomes the JS
`undefined` that `this.functions[index]` yields. -/
def resolveConstWith (rf : Nat → Option BCFunc) (len : Nat) : RawConst → Option Value
  | .rnull => some Value.vnull
  | .rbool b => some (Value.vbool b)
  | .rnum n => some (Value.vnum n)
  | .rstr s => some (Value.vstr s)
  | .rfn idx =>
      if 0 ≤ idx ∧ idx < (len : Int) then (rf idx.toNat).map Value.vfunc
      else some Value.vundef

/-- The fixup pass (`pendingRefs` resolution), as the value the mutable
JS patching produces on a well-founded reference graph: function
constant `idx` becomes the resolved function at that position (or JS
`undefined` when the index is out of range).  `fuel` bounds the
reference depth; `deserialize` passes more fuel than there are
functions, which suffices for every serializer output (references go
strictly forward). -/
def resolveFunc (raws : List RawFunc) : Nat → Nat → Option BCFunc
  | 0, _ => none
  | fuel + 1, i =>
      match raws.get? i with
      | none => none
      | some raw =>
          (raw.consts.mapM fun c =>
            resolveConstWith (fun j => resolveFunc raws fuel j) raws.length c).map
            fun cs => BCFunc.mk raw.name raw.arity raw.upvalueCount ⟨raw.code, cs, raw.lines⟩

/-- `BytecodeDeserializer.deserialize`: verify the magic and version,
read the function count and the functions, resolve the pending function
references, read the main index, and return the main function's chunk.
An out-of-range main index is the JS `TypeError` on
`this.functions[mainIndex].chunk`. -/
def deserialize (E : SerEnv) (bytes : List Nat) : Except DErr Chunk :=
  let rm := readBytes 5 bytes
  if rm.1 ≠ MAGIC.map some then .error .badMagic
  else
    let rv := readByte rm.2
    if rv.1 ≠ some VERSION then .error (.badVersion rv.1)
    else
      let rfc := readUint32 rv.2
      match readFunctions E rfc.1.toNat rfc.2 with
      | .error e => .error e
      | .ok rfs =>
          let rmi := readUint32 rfs.2
          if 0 ≤ rmi.1 ∧ rmi.1 < (rfs.1.length : Int) then
            match resolveFunc rfs.1 (rfs.1.length + 1) rmi.1.toNat with
            | some f => .ok f.chunk
            | none => .error .corrupt
          else .error .typeError

/-! ### Well-formedness for the round trip -/

/-- The number string-codec guarantee, per value: 8 bytes, in range,
decoded back. -/
def wfNumB (E : SerEnv) (n : JsN) : Bool :=
  ((E.f64enc n).length == 8) && (E.f64enc n).all (· < 256) && (E.f64dec (E.f64enc n) == n)

/-- The string-codec guarantee, per string: bounded length, byte range,
decoded back. -/
def wfStrB (E : SerEnv) (s : String) : Bool :=
  decide ((E.strEnc s).length < 2 ^ 31) && (E.strEnc s).all (· < 256) &&
    (E.strDec (E.strEnc s) == s)

mutual

/-- Well-formedness of a function for serialisation: codec guarantees
for its name, 16-bit arity and upvalue count, well-formed chunk. -/
def wfFunc (E : SerEnv) : BCFunc → Bool
  | .mk name arity up ch =>
      wfStrB E name && decide (arity < 2 ^ 16) && decide (up < 2 ^ 16) && wfChunk E ch

/-- Well-formedness of a chunk: byte-ranged code, 16-bit lines, bounded
section lengths, and serialisable, well-formed constants. -/
def wfChunk (E : SerEnv) : Chunk → Bool
  | .mk code consts lines =>
      code.all (· < 256) && decide (code.length < 2 ^ 31) &&
      lines.all (· < 2 ^ 16) && decide (lines.length < 2 ^ 31) &&
      decide (consts.length < 2 ^ 31) && wfConsts E consts

/-- Well-formedness of a constant pool. -/
def wfConsts (E : SerEnv) : List Value → Bool
  | [] => true
  | v :: rest => wfConst E v && wfConsts E rest

/-- Well-formedness of one constant: only the five serialisable kinds. -/
def wfConst (E : SerEnv) : Value → Bool
  | .vnull => true
  | .vbool _ => true
  | .vnum n => wfNumB E n
  | .vstr s => wfStrB E s
  | .vfunc f => wfFunc E f
  | _ => false

end

/-- The raw form `readConstant` recovers for a serialised constant whose
subtree indexing starts at `i` (functions only; other kinds keep their
payload). -/
def rawOfConst : Value → Nat → RawConst
  | .vnull, _ => .rnull
  | .vbool b, _ => .rbool b
  | .vnum n, _ => .rnum n
  | .vstr s, _ => .rstr s
  | .vfunc _, i => .rfn (i : Int)
  | _, _ => .rnull

/-- The raw constants of a pool with function indices assigned from `i`
in preorder blocks. -/
def rawOfConsts : List Value → Nat → List RawConst
  | [], _ => []
  | .vfunc f :: rest, i => .rfn (i : Int) :: rawOfConsts rest (i + funcCount f)
  | v :: rest, i => rawOfConst v i :: rawOfConsts rest i

/-- The raw form of one function at index `selfIdx` (children indexed
from `selfIdx + 1`). -/
def rawOfFunc (f : BCFunc) (selfIdx : Nat) : RawFunc :=
  match f with
  | .mk name arity up ch =>
      ⟨name, arity, up, rawOfConsts ch.constants (selfIdx + 1), ch.code, ch.lines⟩

mutual

/-- The raw-function list `deserialize` reads back for a serialised
subtree: the function itself, then its children's subtrees in preorder. -/
def rawList : BCFunc → Nat → List RawFunc
  | .mk name arity up (.mk code consts lines), selfIdx =>
      rawOfFunc (.mk name arity up (.mk code consts lines)) selfIdx ::
        rawForest consts (selfIdx + 1)

/-- The raw-function lists for the subtrees of one pool's function
constants. -/
def rawForest : List Value → Nat → List RawFunc
  | [], _ => []
  | .vfunc f :: rest, i => rawList f i ++ rawForest rest (i + funcCount f)
  | _ :: rest, i => rawForest rest i

end

/-- A concrete byte codec for witnesses: the float codec stores a small
rational's numerator in the final byte, the string codec uses one byte
per character. -/
def serEnvW : SerEnv :=
  ⟨fun n => match n with | .fin q => [0, 0, 0, 0, 0, 0, 0, q.num.toNat % 256] | _ => [0, 0, 0, 0, 0, 0, 0, 0],
   fun bs => .fin ((bs.getD 7 0 : Nat) : ℚ),
   fun s => s.data.map (fun c => c.toNat % 256),
   fun bs => String.mk (bs.map Char.ofNat)⟩

/-- A concrete chunk exercising every serialisable constant kind,
including a nested function. -/
def chunkW : Chunk :=
  ⟨[Op.PUSH_CONST, 0, Op.HALT],
   [.vfunc (.mk "f" 1 0 ⟨[Op.RETURN], [.vnum (.fin 5), .vstr "hi", .vnull, .vbool true], [1]⟩)],
   [1, 1, 2]⟩

/-- The 42-byte serialised form of the empty chunk: magic, version 1,
function count 1, the `__main__` wrapper (name length 8, `__main__`,
arity 0, upvalue count 0, empty constant/code/line sections), main
index 0. -/
def emptyChunkBytes : List Nat :=
  [0x54, 0x4D, 0x42, 0x44, 0x4C, 1, 0, 0, 0, 1,
   0, 0, 0, 8, 95, 95, 109, 97, 105, 110, 95, 95, 0, 0, 0, 0,
   0, 0, 0, 0, 0, 0, 0, 0, 0, 0, 0, 0, 0, 0, 0, 0]

/-- `emptyChunkBytes` with its final byte missing — a truncated
container. -/
def truncatedBytes : List Nat := emptyChunkBytes.take 41

/-! ## Specification-side definitions

Definitions transcribing what the *specification text* asserts, for the
claims that compare spec against code. -/

/-- The truthiness table asserted by the specification (§3.1):
`Null → false`; `Bool → self`; `Number → n ≠ 0`; `String → non-empty`;
arrays/maps/callables → true. -/
def specTruthy : Value → Bool
  | .vnull => false
  | .vbool b => b
  | .vnum (.fin q) => q != 0
  | .vnum _ => true
  | .vstr s => s != ""
  | _ => true

/-- The string conversion JavaScript `+` actually applies to an operand
when the other side is a string (`ToString ∘ ToPrimitive`) — to be
contrasted with `formatValue`, the conversion the spec says `ADD` uses. -/
def jsToString (H : HostEnv) (v : Value) : String := primToStr H (toPrim H v)

/-! ## Concrete test fixtures -/

/-- A trivial host environment for concrete executions that touch no
host primitive. -/
def H0 : HostEnv :=
  { numToStr := fun _ => ""
    strToNum := fun _ => .nan
    arrStr := fun _ => ""
    objStr := fun _ => ""
    fmtArrElems := fun _ => ""
    fmtObjElems := fun _ => ""
    natives := fun _ _ => .error (.hostError "no native") }

/-- A host environment whose native function 0 ignores its arguments and
returns `null`. -/
def H1 : HostEnv := { H0 with natives := fun _ _ => .ok .vnull }

/-- A closure around a test chunk. -/
def testClosure (codeL : List Nat) (consts : List Value) : ClosureV :=
  ⟨⟨"test", 0, 0, ⟨codeL, consts, []⟩⟩, []⟩

/-- A one-frame VM state about to execute the first opcode of `codeL`. -/
def testState (codeL : List Nat) (consts : List Value) (stk : List Value) : VMState :=
  { stack := stk, globals := [], openUpvalues := [], closedUpvalues := []
    nextUpvId := 0, output := []
    frames := [{ closure := testClosure codeL consts, ip := 0, stackOffset := 0, returnSlot := 0 }] }

/-- A frame about to execute `RETURN`, with locals window starting at
slot 1 and return slot 0. -/
def retFrame : Frame :=
  { closure := testClosure [Op.RETURN] [], ip := 0, stackOffset := 1, returnSlot := 0 }

/-- A parked caller frame. -/
def idleFrame : Frame :=
  { closure := testClosure [] [], ip := 0, stackOffset := 0, returnSlot := 0 }

/-- A two-frame state with three stack slots and three sorted open
upvalues, about to execute `RETURN`. -/
def retState : VMState :=
  { stack := [.vnum (.fin 1), .vnum (.fin 2), .vbool true], globals := []
    frames := [retFrame, idleFrame]
    openUpvalues := [⟨5, 2⟩, ⟨6, 1⟩, ⟨7, 0⟩], closedUpvalues := [], nextUpvId := 9
    output := [] }

/-- A fresh compiler context at function top level. -/
def testCtx : CtxFrame := { chunk := ⟨[], [], []⟩, locals := [], upvalues := [], scopeDepth := 0 }

/-- A compiler context already three block scopes deep. -/
def testCtxDeep : CtxFrame :=
  { chunk := ⟨[], [], []⟩, locals := [], upvalues := [], scopeDepth := 3 }

/-! # Helper lemmas -/

theorem popV_concat (l : List Value) (x : Value) : popV (l ++ [x]) = (x, l) := by
  simp [popV]

/-! # Claims -/

/-- **C1**, counterexample.  The spec's truthiness table makes `Number 0`
and `""` falsy, but `VM.isTruthy` returns `true` for every non-null,
non-boolean value, so the VM and the spec disagree at `0` and at the
empty string. -/
theorem claim1_counterexample :
    isTruthy (.vnum (.fin 0)) = true ∧ specTruthy (.vnum (.fin 0)) = false ∧
    isTruthy (.vstr "") = true ∧ specTruthy (.vstr "") = false := by
  refine ⟨rfl, by decide, rfl, by decide⟩

/-- **C1**, amended.  The VM's truthiness test yields `false` exactly for
`Null` and the boolean `false`; every other value — numbers including
`0` and `NaN`, strings including `""`, arrays, maps, callables, even
`undefined` — is truthy.  Numbers and strings are not special-cased. -/
theorem claim1_theorem (v : Value) :
    isTruthy v = false ↔ v = .vnull ∨ v = .vbool false := by
  cases v <;> simp [isTruthy]

/-- **C2**, counterexample.  `ADD` is the raw host `+`.  Popping
`b = ""` and `a = null`: the claim demands
`stringify(null) ++ stringify("") = "shadow"` (the `PRINT` conversion),
but the VM pushes `"null"`; and popping `b = NaN`, `a = null` — neither
operand a string nor both numbers — the claim demands a `TypeError`,
but the VM succeeds, coercing `null` numerically. -/
theorem claim2_counterexample :
    step H0 (testState [Op.ADD] [] [.vnull, .vstr ""]) =
      .ok (.next { stack := [.vstr "null"], globals := [], openUpvalues := []
                   closedUpvalues := [], nextUpvId := 0, output := []
                   frames := [{ closure := testClosure [Op.ADD] [], ip := 1,
                                stackOffset := 0, returnSlot := 0 }] }) ∧
    "null" ≠ formatValue H0 .vnull ++ formatValue H0 (.vstr "") ∧
    step H0 (testState [Op.ADD] [] [.vnull, .vnum .nan]) =
      .ok (.next { stack := [.vnum .nan], globals := [], openUpvalues := []
                   closedUpvalues := [], nextUpvId := 0, output := []
                   frames := [{ closure := testClosure [Op.ADD] [], ip := 1,
                                stackOffset := 0, returnSlot := 0 }] }) := by
  refine ⟨rfl, by decide, rfl⟩

/-- **C2**, amended.  `ADD` pops `b`, then `a`, and pushes the host `+`
of the two: if both are numbers, their numeric sum; if either operand is
a string, the concatenation of the operands' host string coercions
(`ToString ∘ ToPrimitive`: `null → "null"`, `true → "true"`, …), *not*
the `formatValue` conversion `PRINT` uses; every other combination is
coerced numerically.  No combination of operand types fails: `ADD`
never throws. -/
theorem claim2_theorem (H : HostEnv) (s : VMState) (fr : Frame) (rest : List Frame)
    (base : List Value) (a b : Value)
    (hfr : s.frames = fr :: rest)
    (hstk : s.stack = base ++ [a, b])
    (hop : fr.closure.chunk.code.get? fr.ip = some Op.ADD) :
    step H s = .ok (.next { s with stack := base ++ [jsAdd H a b],
                                   frames := { fr with ip := fr.ip + 1 } :: rest }) ∧
    (∀ na nb, a = .vnum na → b = .vnum nb → jsAdd H a b = .vnum (JsN.add na nb)) ∧
    (∀ sa, a = .vstr sa → jsAdd H a b = .vstr (sa ++ jsToString H b)) ∧
    (∀ sb, b = .vstr sb → jsAdd H a b = .vstr (jsToString H a ++ sb)) := by
  refine ⟨?_, ?_, ?_, ?_⟩
  · obtain ⟨stk, g, frs, ou, cu, nid, out⟩ := s
    simp only at hfr hstk
    subst hfr hstk
    have h2 : base ++ [a, b] = (base ++ [a]) ++ [b] := by simp
    simp only [step, hop, h2, popV_concat]
    norm_num [Op.PUSH_CONST, Op.POP, Op.DUP, Op.ADD]
  · intro na nb ha hb
    subst ha hb
    simp [jsAdd, toPrim, Prim.isStr, primToNum]
  · intro sa ha
    subst ha
    cases b <;> simp [jsAdd, toPrim, Prim.isStr, primToStr, jsToString]
  · intro sb hb
    subst hb
    cases a <;> simp [jsAdd, toPrim, Prim.isStr, primToStr, jsToString]

/-- **C2**, witness: the amended `ADD` theorem applied to a concrete
state adding `true + "x"`. -/
theorem claim2_witness :
    step H0 (testState [Op.ADD] [] [.vbool true, .vstr "x"]) =
      .ok (.next { testState [Op.ADD] [] [.vbool true, .vstr "x"] with
                   stack := [] ++ [jsAdd H0 (.vbool true) (.vstr "x")],
                   frames := [{ closure := testClosure [Op.ADD] [], ip := 1,
                                stackOffset := 0, returnSlot := 0 }] }) ∧
    jsAdd H0 (.vbool true) (.vstr "x") = .vstr ("true" ++ "x") := by
  have h := claim2_theorem H0 (testState [Op.ADD] [] [.vbool true, .vstr "x"])
    { closure := testClosure [Op.ADD] [], ip := 0, stackOffset := 0, returnSlot := 0 }
    [] [] (.vbool true) (.vstr "x") rfl rfl rfl
  exact ⟨h.1, h.2.2.2 "x" rfl⟩

/-- **C4**, counterexample.  `MOD` with divisor `0` does *not* fail: the
source checks the divisor only in the `DIV` case, and `a % 0` evaluates
to `NaN`, which is pushed. -/
theorem claim4_counterexample :
    step H0 (testState [Op.MOD] [] [.vnum (.fin 1), .vnum (.fin 0)]) =
      .ok (.next { stack := [.vnum .nan], globals := [], openUpvalues := []
                   closedUpvalues := [], nextUpvId := 0, output := []
                   frames := [{ closure := testClosure [Op.MOD] [], ip := 1,
                                stackOffset := 0, returnSlot := 0 }] }) := by
  rfl

/-- The host `%` with (numeric) divisor `0` is `NaN` for every dividend. -/
theorem JsN.mod_zero (x : JsN) : JsN.mod x (.fin 0) = .nan := by
  cases x <;> simp [JsN.mod]

/-- **C4**, amended.  `DIV` whose popped divisor `b` is the number `0`
fails with the Division-by-zero error and pushes nothing; `MOD` with the
same zero divisor does *not* fail — it pushes `NaN` (the host `%`
result). -/
theorem claim4_theorem (H : HostEnv) (s : VMState) (fr : Frame) (rest : List Frame)
    (base : List Value) (a : Value)
    (hfr : s.frames = fr :: rest)
    (hstk : s.stack = base ++ [a, .vnum (.fin 0)]) :
    (fr.closure.chunk.code.get? fr.ip = some Op.DIV →
      step H s = .error .divisionByZero) ∧
    (fr.closure.chunk.code.get? fr.ip = some Op.MOD →
      step H s = .ok (.next { s with stack := base ++ [.vnum .nan],
                                     frames := { fr with ip := fr.ip + 1 } :: rest })) := by
  obtain ⟨stk, g, frs, ou, cu, nid, out⟩ := s
  simp only at hfr hstk
  subst hfr hstk
  have h2 : base ++ [a, Value.vnum (.fin 0)] = (base ++ [a]) ++ [Value.vnum (.fin 0)] := by
    simp
  constructor
  · intro hop
    simp only [step, hop, h2, popV_concat]
    norm_num [Op.PUSH_CONST, Op.POP, Op.DUP, Op.ADD, Op.DIV, isJsZero]
  · intro hop
    simp only [step, hop, h2, popV_concat]
    norm_num [Op.PUSH_CONST, Op.POP, Op.DUP, Op.ADD, Op.DIV, Op.MOD, isJsZero]
    simp [toNumber, toPrim, primToNum, JsN.mod_zero]

/-- **C4**, witness: `DIV` by zero errors and `MOD` by zero pushes `NaN`
on concrete states. -/
theorem claim4_witness :
    step H0 (testState [Op.DIV] [] [.vnum (.fin 6), .vnum (.fin 0)]) =
      .error .divisionByZero ∧
    step H0 (testState [Op.MOD] [] [.vnum (.fin 6), .vnum (.fin 0)]) =
      .ok (.next { testState [Op.MOD] [] [.vnum (.fin 6), .vnum (.fin 0)] with
                   stack := [] ++ [.vnum .nan],
                   frames := [{ closure := testClosure [Op.MOD] [], ip := 1,
                                stackOffset := 0, returnSlot := 0 }] }) := by
  constructor
  · exact (claim4_theorem H0 (testState [Op.DIV] [] [.vnum (.fin 6), .vnum (.fin 0)])
      { closure := testClosure [Op.DIV] [], ip := 0, stackOffset := 0, returnSlot := 0 }
      [] [] (.vnum (.fin 6)) rfl rfl).1 rfl
  · exact (claim4_theorem H0 (testState [Op.MOD] [] [.vnum (.fin 6), .vnum (.fin 0)])
      { closure := testClosure [Op.MOD] [], ip := 0, stackOffset := 0, returnSlot := 0 }
      [] [] (.vnum (.fin 6)) rfl rfl).2 rfl

/-- **C5**, counterexample.  A `CALL` of the native `f` with declared
arity `1` and argument count `0` does **not** fail with `ArityMismatch`:
the VM's native path performs no arity check at all, and the native is
invoked with the (empty) popped argument list. -/
theorem claim5_counterexample :
    step H1 (testState [Op.CALL, 0] [] [.vnative "f" 1 0]) =
      .ok (.next { stack := [.vnull], globals := [], openUpvalues := []
                   closedUpvalues := [], nextUpvId := 0, output := []
                   frames := [{ closure := testClosure [Op.CALL, 0] [], ip := 2,
                                stackOffset := 0, returnSlot := 0 }] }) := by
  rfl

/-- **C5**, amended.  `callValue` checks arity only for closures (and
bare bytecode functions, which are wrapped in a closure): a closure
call with `argCount ≠ arity` fails `ArityMismatch`, and with matching
arity pushes a frame.  A native callee is invoked with the popped
arguments with no arity check whatsoever — whatever its declared arity,
`-1` or not. -/
theorem claim5_theorem (H : HostEnv) (s : VMState) :
    (∀ c argCount, argCount ≠ c.arity →
        callValue H s (.vclosure c) argCount = .error (.arityMismatch c.arity argCount)) ∧
    (∀ c argCount, argCount = c.arity →
        callValue H s (.vclosure c) argCount =
          .ok { s with frames := { closure := c, ip := 0,
                                   stackOffset := s.stack.length - argCount,
                                   returnSlot := s.stack.length - argCount - 1 }
                       :: s.frames }) ∧
    (∀ nm ar fnId argCount r,
        H.natives fnId (List.replicate (argCount - s.stack.length) .vundef ++
          s.stack.drop (s.stack.length - argCount)) = .ok r →
        callValue H s (.vnative nm ar fnId) argCount =
          .ok { s with stack := s.stack.take (s.stack.length - argCount - 1) ++ [r] }) := by
  refine ⟨?_, ?_, ?_⟩
  · intro c argCount hne
    simp [callValue, callClosure, hne]
  · intro c argCount heq
    simp [callValue, callClosure, heq]
  · intro nm ar fnId argCount r hnat
    simp [callValue, hnat]

/-- **C5**, witness: a closure of arity 2 called with 3 arguments fails
`ArityMismatch`; the same native of arity 1 called with 0 arguments
succeeds. -/
theorem claim5_witness :
    callValue H1 (testState [] [] []) (.vclosure (testClosure [] [])) 3 =
      .error (.arityMismatch 0 3) ∧
    callValue H1 (testState [] [] [.vnative "f" 1 0]) (.vnative "f" 1 0) 0 =
      .ok { testState [] [] [.vnative "f" 1 0] with
            stack := [.vnative "f" 1 0].take 0 ++ [.vnull] } := by
  constructor
  · exact (claim5_theorem H1 (testState [] [] [])).1 (testClosure [] []) 3 (by decide)
  · exact (claim5_theorem H1 (testState [] [] [.vnative "f" 1 0])).2.2 "f" 1 0 0 .vnull rfl

/-- Every entry of the list `captureUpvalue` returns is either an entry
of the input list or the (possibly fresh) upvalue at the captured
location. -/
theorem captureUpvalue_subset (l : List UpvEntry) (idx nid : Nat) :
    ∀ w ∈ (captureUpvalue l idx nid).2.1, w ∈ l ∨ w.location = idx := by
  induction l generalizing nid with
  | nil =>
      intro w hw
      simp only [captureUpvalue, List.mem_singleton] at hw
      exact Or.inr (by rw [hw])
  | cons u rest ih =>
      intro w hw
      by_cases h1 : idx < u.location
      · simp only [captureUpvalue, if_pos h1, List.mem_cons] at hw
        rcases hw with hw | hw
        · exact Or.inl (by rw [hw]; exact List.mem_cons_self _ _)
        · rcases ih nid w hw with h | h
          · exact Or.inl (List.mem_cons_of_mem _ h)
          · exact Or.inr h
      · by_cases h2 : u.location = idx
        · simp only [captureUpvalue, if_neg h1, if_pos h2] at hw
          exact Or.inl hw
        · simp only [captureUpvalue, if_neg h1, if_neg h2, List.mem_cons] at hw
          rcases hw with hw | hw
          · exact Or.inr (by rw [hw])
          · exact Or.inl (List.mem_cons.2 hw)

/-- In a strictly-descending open-upvalue list, locations identify
entries. -/
theorem sorted_loc_inj (l : List UpvEntry)
    (hs : l.Pairwise (fun u v => v.location < u.location)) :
    ∀ u ∈ l, ∀ v ∈ l, u.location = v.location → u = v := by
  induction l with
  | nil => simp
  | cons a rest ih =>
      intro u hu v hv heq
      rcases List.mem_cons.1 hu with hu | hu <;> rcases List.mem_cons.1 hv with hv | hv
      · rw [hu, hv]
      · exact absurd (heq ▸ hu ▸ (List.pairwise_cons.1 hs).1 v hv) (lt_irrefl _)
      · exact absurd (heq ▸ hv ▸ (List.pairwise_cons.1 hs).1 u hu) (lt_irrefl _)
      · exact ih (List.pairwise_cons.1 hs).2 u hu v hv heq

/-- The open list coming out of `closeUpvalues` is a suffix of the one
going in (closing only unlinks from the head). -/
theorem closeUpvalues_suffix (stack : List Value) (li : Nat) (l : List UpvEntry)
    (closed : List (Nat × Value)) :
    (closeUpvalues stack li l closed).1 <:+ l := by
  induction l generalizing closed with
  | nil => simp [closeUpvalues]
  | cons u rest ih =>
      by_cases h : li ≤ u.location
      · simp only [closeUpvalues, if_pos h]
        exact (ih _).trans (List.suffix_cons u rest)
      · simp only [closeUpvalues, if_neg h]
        exact List.suffix_refl _

/-- `captureUpvalue` preserves the strictly-descending-location sort of
the open-upvalue list. -/
theorem captureUpvalue_sorted (l : List UpvEntry) (idx nid : Nat)
    (hs : l.Pairwise (fun u v => v.location < u.location)) :
    ((captureUpvalue l idx nid).2.1).Pairwise (fun u v => v.location < u.location) := by
  induction l generalizing nid with
  | nil => simp [captureUpvalue]
  | cons u rest ih =>
      rcases List.pairwise_cons.1 hs with ⟨hu, hrest⟩
      by_cases h1 : idx < u.location
      · simp only [captureUpvalue, if_pos h1]
        refine List.pairwise_cons.2 ⟨?_, ih nid hrest⟩
        intro w hw
        rcases captureUpvalue_subset rest idx nid w hw with h | h
        · exact hu w h
        · omega
      · by_cases h2 : u.location = idx
        · simpa only [captureUpvalue, if_neg h1, if_pos h2] using hs
        · simp only [captureUpvalue, if_neg h1, if_neg h2]
          refine List.pairwise_cons.2 ⟨?_, hs⟩
          intro w hw
          show w.location < idx
          rcases List.mem_cons.1 hw with hw | hw
          · subst hw; omega
          · have := hu w hw; omega

/-- The upvalue returned by `captureUpvalue` sits at the requested stack
location. -/
theorem captureUpvalue_loc (l : List UpvEntry) (idx nid : Nat) :
    (captureUpvalue l idx nid).1.location = idx := by
  induction l generalizing nid with
  | nil => simp [captureUpvalue]
  | cons u rest ih =>
      by_cases h1 : idx < u.location
      · simpa only [captureUpvalue, if_pos h1] using ih nid
      · by_cases h2 : u.location = idx
        · simp only [captureUpvalue, if_neg h1, if_pos h2]; exact h2
        · simp only [captureUpvalue, if_neg h1, if_neg h2]

/-- The upvalue returned by `captureUpvalue` is linked into the
resulting open list. -/
theorem captureUpvalue_mem (l : List UpvEntry) (idx nid : Nat) :
    (captureUpvalue l idx nid).1 ∈ (captureUpvalue l idx nid).2.1 := by
  induction l generalizing nid with
  | nil => simp [captureUpvalue]
  | cons u rest ih =>
      by_cases h1 : idx < u.location
      · simp only [captureUpvalue, if_pos h1]
        exact List.mem_cons_of_mem _ (ih nid)
      · by_cases h2 : u.location = idx
        · simp only [captureUpvalue, if_neg h1, if_pos h2]
          exact List.mem_cons_self _ _
        · simp only [captureUpvalue, if_neg h1, if_neg h2]
          exact List.mem_cons_self _ _

/-- If the list already holds an upvalue at the requested location,
`captureUpvalue` returns that very entry and changes nothing. -/
theorem captureUpvalue_dedup (l : List UpvEntry) (idx nid : Nat)
    (hs : l.Pairwise (fun u v => v.location < u.location)) :
    ∀ u ∈ l, u.location = idx →
      captureUpvalue l idx nid = (u, l, nid) := by
  induction l generalizing nid with
  | nil => simp
  | cons u rest ih =>
      rcases List.pairwise_cons.1 hs with ⟨hu, hrest⟩
      intro w hw hwloc
      rcases List.mem_cons.1 hw with hw | hw
      · subst hw
        have h1 : ¬ idx < w.location := by omega
        simp [captureUpvalue, if_neg h1, if_pos hwloc]
      · have h1 : idx < u.location := by
          have := hu w hw; omega
        simp [captureUpvalue, if_pos h1, ih nid hrest w hw hwloc]

/-- **C8**.  `captureUpvalue` keeps the open-upvalue list sorted by
strictly descending stack location — hence at most one open upvalue per
stack location — and returns an upvalue at the requested location that
is linked into the resulting list; when an entry at that location
already exists it returns *that very entry* (same object identity),
leaving the list and the id supply untouched, so all closures capturing
the same stack slot share the same `Upvalue` object.  `closeUpvalues`
only unlinks from the head, so it too preserves the invariant. -/
theorem claim8_theorem (l : List UpvEntry) (idx nid : Nat)
    (hs : l.Pairwise (fun u v => v.location < u.location)) :
    ((captureUpvalue l idx nid).2.1).Pairwise (fun u v => v.location < u.location) ∧
    (captureUpvalue l idx nid).1.location = idx ∧
    (captureUpvalue l idx nid).1 ∈ (captureUpvalue l idx nid).2.1 ∧
    (∀ u ∈ l, u.location = idx → captureUpvalue l idx nid = (u, l, nid)) ∧
    (∀ u ∈ (captureUpvalue l idx nid).2.1, ∀ v ∈ (captureUpvalue l idx nid).2.1,
        u.location = v.location → u = v) ∧
    (∀ stack li closed,
        ((closeUpvalues stack li l closed).1).Pairwise
          (fun u v => v.location < u.location)) :=
  ⟨captureUpvalue_sorted l idx nid hs,
   captureUpvalue_loc l idx nid,
   captureUpvalue_mem l idx nid,
   captureUpvalue_dedup l idx nid hs,
   sorted_loc_inj _ (captureUpvalue_sorted l idx nid hs),
   fun stack li closed => hs.sublist (closeUpvalues_suffix stack li l closed).sublist⟩

/-- **C8**, witness: capturing location 5 in the sorted list
`[loc 9, loc 5, loc 2]` returns the existing middle entry unchanged;
capturing the fresh location 7 splices a new entry keeping the list
sorted. -/
theorem claim8_witness :
    captureUpvalue [⟨3, 9⟩, ⟨1, 5⟩, ⟨0, 2⟩] 5 10 = (⟨1, 5⟩, [⟨3, 9⟩, ⟨1, 5⟩, ⟨0, 2⟩], 10) ∧
    ((captureUpvalue [⟨3, 9⟩, ⟨1, 5⟩, ⟨0, 2⟩] 7 10).2.1).Pairwise
      (fun u v => v.location < u.location) := by
  constructor
  · exact (claim8_theorem [⟨3, 9⟩, ⟨1, 5⟩, ⟨0, 2⟩] 5 10 (by decide)).2.2.2.1 ⟨1, 5⟩
      (by decide) rfl
  · exact (claim8_theorem [⟨3, 9⟩, ⟨1, 5⟩, ⟨0, 2⟩] 7 10 (by decide)).1

/-- `stack.length = n` leaves exactly `n` slots. -/
theorem setLength_length (st : List Value) (n : Nat) : (setLength st n).length = n := by
  simp only [setLength, List.length_append, List.length_take, List.length_replicate]
  omega

/-- On a strictly-descending open-upvalue list, `closeUpvalues` closes
exactly the entries with location ≥ the threshold — recording each with
the stack value at its location — and keeps exactly those below it. -/
theorem closeUpvalues_sorted_eq (stack : List Value) (li : Nat) (l : List UpvEntry)
    (closed : List (Nat × Value))
    (hs : l.Pairwise (fun u v => v.location < u.location)) :
    closeUpvalues stack li l closed =
      (l.filter (fun u => u.location < li),
       closed ++ (l.filter (fun u => li ≤ u.location)).map
         (fun u => (u.id, readSlot stack u.location))) := by
  induction l generalizing closed with
  | nil => simp [closeUpvalues]
  | cons u rest ih =>
      rcases List.pairwise_cons.1 hs with ⟨hu, hrest⟩
      by_cases h : li ≤ u.location
      · have h1 : ¬ u.location < li := by omega
        simp only [closeUpvalues, if_pos h, ih _ hrest, List.filter_cons,
          decide_eq_true_eq, h1, if_neg h1, h, if_pos h, List.map_cons, List.append_assoc,
          List.singleton_append]
        simp
      · have h2 : u.location < li := by omega
        have hall : ∀ w ∈ rest, w.location < li := fun w hw => by
          have := hu w hw; omega
        simp only [closeUpvalues, if_neg h]
        rw [List.filter_cons_of_pos (by simpa using h2),
          List.filter_eq_self.2 (fun w hw => by simpa using hall w hw),
          List.filter_cons_of_neg (by simpa using h),
          List.filter_eq_nil_iff.2 (fun w hw => by have := hall w hw; simp; omega),
          List.map_nil, List.append_nil]

/-- **C7**.  Executing `RETURN` with more than one frame on the frame
stack: every open upvalue whose location is ≥ the returning frame's
`stackOffset` is closed (unlinked, its cell recording the stack value at
its location after the return value was popped), the frame is popped,
the value stack is cut to the frame's `returnSlot`, and the return value
is pushed — so the stack length is exactly `returnSlot + 1` with the
return value on top, leaving no orphaned slots. -/
theorem claim7_theorem (H : HostEnv) (s : VMState) (fr : Frame) (g : Frame)
    (rest : List Frame)
    (hfr : s.frames = fr :: g :: rest)
    (hop : fr.closure.chunk.code.get? fr.ip = some Op.RETURN)
    (hs : s.openUpvalues.Pairwise (fun u v => v.location < u.location)) :
    ∃ s', step H s = .ok (.next s') ∧
      s'.frames = g :: rest ∧
      s'.stack.length = fr.returnSlot + 1 ∧
      s'.stack.getLast? = some ((popV s.stack).1) ∧
      s'.openUpvalues = s.openUpvalues.filter (fun u => u.location < fr.stackOffset) ∧
      (∀ u ∈ s.openUpvalues, fr.stackOffset ≤ u.location →
          u ∉ s'.openUpvalues ∧
          (u.id, readSlot (popV s.stack).2 u.location) ∈ s'.closedUpvalues) := by
  obtain ⟨stk, gl, frs, ou, cu, nid, out⟩ := s
  simp only at hfr hs ⊢
  subst hfr
  refine ⟨{ stack := setLength (popV stk).2 fr.returnSlot ++ [(popV stk).1]
            globals := gl, frames := g :: rest
            openUpvalues := (closeUpvalues (popV stk).2 fr.stackOffset ou cu).1
            closedUpvalues := (closeUpvalues (popV stk).2 fr.stackOffset ou cu).2
            nextUpvId := nid, output := out }, ?_, rfl, ?_, ?_, ?_, ?_⟩
  · simp only [step, hop]
    norm_num [Op.PUSH_CONST, Op.POP, Op.DUP, Op.ADD, Op.DIV, Op.MOD, Op.NOT, Op.LOAD,
      Op.STORE, Op.LOAD_GLOBAL, Op.STORE_GLOBAL, Op.JUMP, Op.JUMP_IF_FALSE,
      Op.JUMP_IF_TRUE, Op.LOOP, Op.CALL, Op.MAKE_CLOSURE, Op.GET_UPVALUE,
      Op.SET_UPVALUE, Op.CLOSE_UPVALUE, Op.RETURN]
  · simp [setLength_length]
  · simp
  · simp [closeUpvalues_sorted_eq _ _ _ _ hs]
  · intro u hu hloc
    have h1 : ¬ u.location < fr.stackOffset := by omega
    constructor
    · simp [closeUpvalues_sorted_eq _ _ _ _ hs, List.mem_filter, h1]
    · simp only [closeUpvalues_sorted_eq _ _ _ _ hs, List.mem_append, List.mem_map]
      exact Or.inr ⟨u, List.mem_filter.2 ⟨hu, by simpa using hloc⟩, rfl⟩

/-- **C7**, witness: returning from `retState` pops to exactly
`returnSlot + 1 = 1` stack slot, drops to one frame, and the two open
upvalues at locations ≥ `stackOffset = 1` are closed while the one at
location 0 stays open. -/
theorem claim7_witness :
    ∃ s', step H0 retState = .ok (.next s') ∧
      s'.stack.length = 1 ∧ s'.frames.length = 1 ∧
      s'.openUpvalues = [⟨7, 0⟩] := by
  obtain ⟨s', h1, h2, h3, _, h5, _⟩ :=
    claim7_theorem H0 retState retFrame idleFrame [] rfl rfl (by decide)
  refine ⟨s', h1, by rw [h3]; rfl, by rw [h2]; rfl, ?_⟩
  rw [h5]
  decide

/-! ## Generator preservation lemmas -/

theorem prefix_set_of_le {α : Type} (l₀ l : List α) (h : l₀ <+: l) (i : Nat)
    (hi : l₀.length ≤ i) (v : α) : l₀ <+: l.set i v := by
  obtain ⟨r, rfl⟩ := h
  rcases Nat.lt_or_ge i (l₀.length + r.length) with h1 | h1
  · rw [List.set_append_right _ _ (by omega)]
    exact ⟨_, rfl⟩
  · rw [List.set_eq_of_length_le (by simpa using h1)]
    exact ⟨_, rfl⟩

theorem framePres_refl (f : CtxFrame) : FramePres f f :=
  ⟨rfl, rfl, rfl, List.prefix_refl _⟩

theorem framePres_trans {a b c : CtxFrame} (h1 : FramePres a b) (h2 : FramePres b c) :
    FramePres a c :=
  ⟨h2.1.trans h1.1, h2.2.1.trans h1.2.1, h2.2.2.1.trans h1.2.2.1,
   h1.2.2.2.trans h2.2.2.2⟩

theorem forall₂_framePres_refl (t : List CtxFrame) : List.Forall₂ FramePres t t := by
  induction t with
  | nil => exact List.Forall₂.nil
  | cons x rest ih => exact List.Forall₂.cons (framePres_refl x) ih

theorem forall₂_framePres_trans {a b c : List CtxFrame}
    (h1 : List.Forall₂ FramePres a b) (h2 : List.Forall₂ FramePres b c) :
    List.Forall₂ FramePres a c := by
  induction h1 generalizing c with
  | nil => cases h2; exact List.Forall₂.nil
  | cons hx hrest ih =>
      cases h2 with
      | cons hy hrest2 => exact List.Forall₂.cons (framePres_trans hx hy) (ih hrest2)

theorem genPres_refl (st : GenSt) : GenPres st st := by
  obtain ⟨ctxs⟩ := st
  cases ctxs with
  | nil => trivial
  | cons c t =>
      exact ⟨List.prefix_refl _, List.prefix_refl _, forall₂_framePres_refl t⟩

theorem genPres_trans {a b c : GenSt} (h1 : GenPres a b) (h2 : GenPres b c) :
    GenPres a c := by
  obtain ⟨as⟩ := a; obtain ⟨bs⟩ := b; obtain ⟨cs⟩ := c
  cases as with
  | nil =>
      cases bs with
      | nil => cases cs with
        | nil => trivial
        | cons _ _ => exact absurd h2 (by simp [GenPres])
      | cons _ _ => exact absurd h1 (by simp [GenPres])
  | cons x xt =>
      cases bs with
      | nil => exact absurd h1 (by simp [GenPres])
      | cons y yt =>
          cases cs with
          | nil => exact absurd h2 (by simp [GenPres])
          | cons z zt =>
              obtain ⟨hc1, hk1, hf1⟩ := h1
              obtain ⟨hc2, hk2, hf2⟩ := h2
              exact ⟨hc1.trans hc2, hk1.trans hk2, forall₂_framePres_trans hf1 hf2⟩

theorem genPres_emit (st : GenSt) (b ln : Nat) : GenPres st (st.emit b ln) := by
  obtain ⟨ctxs⟩ := st
  cases ctxs with
  | nil => simp [GenSt.emit, GenSt.mapCur, GenPres]
  | cons c t =>
      refine ⟨⟨[b], rfl⟩, List.prefix_refl _, forall₂_framePres_refl t⟩

theorem genPres_emitWithOperand (st : GenSt) (o p ln : Nat) :
    GenPres st (st.emitWithOperand o p ln) :=
  genPres_trans (genPres_emit st o ln) (genPres_emit _ p ln)

theorem genPres_addConstCur (st : GenSt) (v : Value) :
    GenPres st (st.addConstCur v).2 := by
  obtain ⟨ctxs⟩ := st
  cases ctxs with
  | nil => simp [GenSt.addConstCur, GenPres]
  | cons c t =>
      simp only [GenSt.addConstCur, Chunk.addConstant]
      cases h : c.chunk.constants.findIdx? (fun k => jsStrictEqV k v) with
      | none =>
          exact ⟨List.prefix_refl _, ⟨[v], rfl⟩, forall₂_framePres_refl t⟩
      | some i =>
          exact ⟨List.prefix_refl _, List.prefix_refl _, forall₂_framePres_refl t⟩

theorem genPres_emitConstant (st : GenSt) (v : Value) (ln : Nat) :
    GenPres st (st.emitConstant v ln) :=
  genPres_trans (genPres_addConstCur st v) (genPres_emitWithOperand _ Op.PUSH_CONST _ ln)

theorem genPres_emitJump (st : GenSt) (o ln : Nat) :
    GenPres st (st.emitJump o ln).1 :=
  genPres_trans (genPres_emit st o ln) (genPres_emit _ 0xFF ln)

theorem genPres_addLocal (st : GenSt) (name : String) :
    GenPres st (st.addLocal name) := by
  obtain ⟨ctxs⟩ := st
  cases ctxs with
  | nil => simp [GenSt.addLocal, GenSt.mapCur, GenPres]
  | cons c t =>
      exact ⟨List.prefix_refl _, List.prefix_refl _, forall₂_framePres_refl t⟩

theorem genPres_beginScope (st : GenSt) : GenPres st st.beginScope := by
  obtain ⟨ctxs⟩ := st
  cases ctxs with
  | nil => simp [GenSt.beginScope, GenSt.mapCur, GenPres]
  | cons c t =>
      exact ⟨List.prefix_refl _, List.prefix_refl _, forall₂_framePres_refl t⟩

theorem endScopeRev_pres (d : Nat) (ls : List LocalV) : ∀ ch : Chunk,
    ch.code <+: (endScopeRev d ch ls).1.code ∧
    (endScopeRev d ch ls).1.constants = ch.constants := by
  induction ls with
  | nil => intro ch; exact ⟨List.prefix_refl _, rfl⟩
  | cons l rest ih =>
      intro ch
      by_cases hd : l.depth > d
      · simp only [endScopeRev, if_pos hd]
        have hrec := ih (ch.write (if l.isCaptured then Op.CLOSE_UPVALUE else Op.POP) 0)
        have h1 : ch.code <+:
            (ch.write (if l.isCaptured then Op.CLOSE_UPVALUE else Op.POP) 0).code :=
          List.prefix_append _ _
        exact ⟨h1.trans hrec.1, hrec.2⟩
      · simp [endScopeRev, hd]

theorem genPres_endScope (st : GenSt) : GenPres st st.endScope := by
  obtain ⟨ctxs⟩ := st
  cases ctxs with
  | nil => simp [GenSt.endScope, GenSt.mapCur, GenPres]
  | cons c t =>
      have h := endScopeRev_pres (c.scopeDepth - 1) c.locals.reverse c.chunk
      refine ⟨?_, ?_, forall₂_framePres_refl t⟩
      · simpa [GenSt.endScope, GenSt.mapCur, endScopeAux] using h.1
      · simp [GenSt.endScope, GenSt.mapCur, endScopeAux, h.2, List.prefix_refl]

theorem genPres_patchJump {st0 stX : GenSt} (off : Nat)
    (h : GenPres st0 stX)
    (hoff : st0.code.length ≤ off + 1) :
    GenPres st0 (stX.patchJump off) := by
  obtain ⟨as⟩ := st0; obtain ⟨bs⟩ := stX
  cases as with
  | nil =>
      cases bs with
      | nil => simpa [GenSt.patchJump, GenSt.mapCur, GenPres] using h
      | cons _ _ => exact absurd h (by simp [GenPres])
  | cons c t =>
      cases bs with
      | nil => exact absurd h (by simp [GenPres])
      | cons c' t' =>
          obtain ⟨hc, hk, hf⟩ := h
          exact ⟨prefix_set_of_le _ _ hc _ (by simpa [GenSt.code] using hoff) _, hk, hf⟩

theorem markCaptured_map (ls : List LocalV) (i : Nat) :
    (markCaptured ls i).map (fun l => (l.name, l.depth)) =
      ls.map (fun l => (l.name, l.depth)) := by
  induction ls generalizing i with
  | nil => rfl
  | cons x rest ih =>
      cases i with
      | zero => simp [markCaptured]
      | succ n => simp [markCaptured, ih]

theorem addUpvalue_isPrefix (ups : List UpvDesc) (i : Nat) (b : Bool) :
    ups <+: (addUpvalue ups i b).2 := by
  unfold addUpvalue
  cases h : ups.findIdx? (fun u => u.index == i && u.isLocal == b) with
  | none => exact ⟨_, rfl⟩
  | some k => exact List.prefix_refl _

theorem resolveUpvalue_frames (ctxs : List CtxFrame) (name : String) :
    List.Forall₂ FramePres ctxs (resolveUpvalue ctxs name).2 := by
  induction ctxs with
  | nil => exact List.Forall₂.nil
  | cons cur rest ih =>
      cases rest with
      | nil => exact List.Forall₂.cons (framePres_refl cur) List.Forall₂.nil
      | cons enc rest2 =>
          cases hfind : lastIdxOf enc.locals name with
          | some i =>
              simp only [resolveUpvalue, hfind]
              refine List.Forall₂.cons ⟨rfl, rfl, rfl, addUpvalue_isPrefix _ _ _⟩
                (List.Forall₂.cons ⟨rfl, rfl, markCaptured_map _ _, List.prefix_refl _⟩
                  (forall₂_framePres_refl rest2))
          | none =>
              simp only [resolveUpvalue, hfind]
              cases hrec : resolveUpvalue (enc :: rest2) name with
              | mk r encRest' =>
                  have ihr : List.Forall₂ FramePres (enc :: rest2) encRest' := by
                    rw [← (show (resolveUpvalue (enc :: rest2) name).2 = encRest' by
                      rw [hrec])]
                    exact ih
                  cases r with
                  | some u =>
                      exact List.Forall₂.cons
                        ⟨rfl, rfl, rfl, addUpvalue_isPrefix _ _ _⟩ ihr
                  | none =>
                      exact List.Forall₂.cons (framePres_refl cur) ihr

theorem genPres_of_forall₂ {ctxs ctxs' : List CtxFrame}
    (h : List.Forall₂ FramePres ctxs ctxs') : GenPres ⟨ctxs⟩ ⟨ctxs'⟩ := by
  cases h with
  | nil => trivial
  | cons hx hrest =>
      exact ⟨hx.1 ▸ List.prefix_refl _, hx.1 ▸ List.prefix_refl _, hrest⟩

theorem genPres_addLocals (ps : List String) (st : GenSt) :
    GenPres st (ps.foldl (fun s p => s.addLocal p) st) := by
  induction ps generalizing st with
  | nil => exact genPres_refl st
  | cons p rest ih =>
      exact genPres_trans (genPres_addLocal st p) (by simpa using ih (st.addLocal p))

theorem findIdx?_get {α : Type} (p : α → Bool) (l : List α) :
    ∀ i, l.findIdx? p = some i → ∃ a, l.get? i = some a ∧ p a = true := by
  induction l with
  | nil => intro i h; simp at h
  | cons x rest ih =>
      intro i h
      rw [List.findIdx?_cons] at h
      by_cases hp : p x
      · rw [if_pos hp] at h
        cases h
        exact ⟨x, rfl, hp⟩
      · rw [if_neg hp, List.findIdx?_succ] at h
        cases hrec : rest.findIdx? p with
        | none => rw [hrec] at h; simp at h
        | some j =>
            rw [hrec] at h
            simp at h
            obtain ⟨a, hget, hpa⟩ := ih j hrec
            refine ⟨a, ?_, hpa⟩
            subst h
            simpa using hget

theorem addConstant_code (ch : Chunk) (v : Value) :
    (ch.addConstant v).2.code = ch.code := by
  unfold Chunk.addConstant
  cases ch.constants.findIdx? (fun k => jsStrictEqV k v) <;> rfl

theorem addConstant_constPrefix (ch : Chunk) (v : Value) :
    ch.constants <+: (ch.addConstant v).2.constants := by
  unfold Chunk.addConstant
  cases ch.constants.findIdx? (fun k => jsStrictEqV k v) with
  | none => exact List.prefix_append _ _
  | some i => exact List.prefix_refl _

/-- Interning a string constant yields an index holding exactly that
string. -/
theorem addConstant_str (ch : Chunk) (s : String) :
    (ch.addConstant (.vstr s)).2.constants.get? (ch.addConstant (.vstr s)).1 =
      some (.vstr s) := by
  unfold Chunk.addConstant
  cases h : ch.constants.findIdx? (fun k => jsStrictEqV k (.vstr s)) with
  | none => simp [Chunk.constants]
  | some i =>
      obtain ⟨a, hget, hpa⟩ := findIdx?_get _ _ i h
      have ha : a = .vstr s := by
        cases a <;> simp_all [jsStrictEqV]
      simpa [ha] using hget

theorem Chunk.code_write (ch : Chunk) (b ln : Nat) : (ch.write b ln).code = ch.code ++ [b] :=
  rfl

theorem Chunk.constants_write (ch : Chunk) (b ln : Nat) :
    (ch.write b ln).constants = ch.constants := rfl

theorem emit_contexts (c : CtxFrame) (t : List CtxFrame) (b ln : Nat) :
    (GenSt.mk (c :: t)).emit b ln = GenSt.mk ({ c with chunk := c.chunk.write b ln } :: t) :=
  rfl

theorem emitDescs_spec (line : Nat) (ups : List UpvDesc) :
    ∀ (c : CtxFrame) (t : List CtxFrame),
    ∃ c' : CtxFrame,
      (ups.foldl (fun s u => (s.emit (if u.isLocal then 1 else 0) line).emit u.index line)
        (GenSt.mk (c :: t))) = GenSt.mk (c' :: t) ∧
      c'.chunk.code = c.chunk.code ++ descBytes ups ∧
      c'.chunk.constants = c.chunk.constants ∧
      c'.locals = c.locals ∧ c'.scopeDepth = c.scopeDepth ∧ c'.upvalues = c.upvalues := by
  induction ups with
  | nil => intro c t; exact ⟨c, rfl, by simp [descBytes], rfl, rfl, rfl, rfl⟩
  | cons u rest ih =>
      intro c t
      obtain ⟨c', h1, h2, h3, h4, h5, h6⟩ :=
        ih { c with chunk := (c.chunk.write (if u.isLocal then 1 else 0) line).write u.index line } t
      refine ⟨c', ?_, ?_, ?_, by simpa using h4, by simpa using h5, by simpa using h6⟩
      · simpa [List.foldl_cons, emit_contexts] using h1
      · rw [h2]
        simp [Chunk.write, Chunk.code, descBytes]
      · simpa [Chunk.write, Chunk.constants] using h3

theorem funcTail_spec (c : CtxFrame) (t : List CtxFrame) (fv : Value) (ups : List UpvDesc)
    (name : String) (line : Nat) :
    ∃ (c' : CtxFrame) (k nameIdx : Nat),
      funcDeclTail (GenSt.mk (c :: t)) fv ups name line = GenSt.mk (c' :: t) ∧
      c'.chunk.code = c.chunk.code ++ [Op.MAKE_CLOSURE, k] ++ descBytes ups ++
        [Op.STORE_GLOBAL, nameIdx, Op.POP] ∧
      c.chunk.constants <+: c'.chunk.constants ∧
      c'.chunk.constants.get? nameIdx = some (.vstr name) ∧
      c'.locals = c.locals ∧ c'.scopeDepth = c.scopeDepth := by
  obtain ⟨c₃, hfold, h2, h3, h4, h5, h6⟩ := emitDescs_spec line ups
    { c with chunk := ((c.chunk.addConstant fv).2.write Op.MAKE_CLOSURE line).write (c.chunk.addConstant fv).1 line } t
  refine ⟨{ c₃ with chunk := (((c₃.chunk.addConstant (.vstr name)).2.write Op.STORE_GLOBAL line).write (c₃.chunk.addConstant (.vstr name)).1 line).write Op.POP line },
    (c.chunk.addConstant fv).1, (c₃.chunk.addConstant (.vstr name)).1, ?_, ?_, ?_, ?_, ?_, ?_⟩
  · show funcDeclTail (GenSt.mk (c :: t)) fv ups name line = _
    simp only [funcDeclTail]
    rw [show (((GenSt.mk (c :: t)).addConstCur fv).2.emitWithOperand Op.MAKE_CLOSURE
        ((GenSt.mk (c :: t)).addConstCur fv).1 line) =
      GenSt.mk ({ c with chunk := ((c.chunk.addConstant fv).2.write Op.MAKE_CLOSURE line).write (c.chunk.addConstant fv).1 line } :: t) from rfl, hfold]
    rfl
  · have hc3 : (c₃.chunk.addConstant (.vstr name)).2.code = c₃.chunk.code :=
      addConstant_code _ _
    have hcfv : (c.chunk.addConstant fv).2.code = c.chunk.code := addConstant_code _ _
    simp only [Chunk.code_write] at h2 ⊢
    rw [hc3, h2, hcfv]
    simp
  · show c.chunk.constants <+:
      ((((c₃.chunk.addConstant (.vstr name)).2.write Op.STORE_GLOBAL line).write
        (c₃.chunk.addConstant (.vstr name)).1 line).write Op.POP line).constants
    have h1 : c.chunk.constants <+: (c.chunk.addConstant fv).2.constants :=
      addConstant_constPrefix _ _
    have hk : c₃.chunk.constants = (c.chunk.addConstant fv).2.constants := by
      rw [h3]; rfl
    have h2' : c₃.chunk.constants <+: (c₃.chunk.addConstant (.vstr name)).2.constants :=
      addConstant_constPrefix _ _
    simpa [Chunk.write, Chunk.constants] using (hk ▸ h1).trans h2'
  · show ((((c₃.chunk.addConstant (.vstr name)).2.write Op.STORE_GLOBAL line).write
        (c₃.chunk.addConstant (.vstr name)).1 line).write Op.POP line).constants.get?
        (c₃.chunk.addConstant (.vstr name)).1 = _
    simpa [Chunk.write, Chunk.constants] using addConstant_str c₃.chunk name
  · exact h4
  · exact h5

theorem genPres_code_le {a b : GenSt} (h : GenPres a b) : a.code.length ≤ b.code.length := by
  obtain ⟨as⟩ := a; obtain ⟨bs⟩ := b
  cases as with
  | nil => cases bs with
      | nil => exact le_rfl
      | cons _ _ => exact absurd h (by simp [GenPres])
  | cons c t =>
      cases bs with
      | nil => exact absurd h (by simp [GenPres])
      | cons c' t' => simpa [GenSt.code] using h.1.length_le

theorem addLocals_cons (ps : List String) : ∀ (x : CtxFrame) (y : List CtxFrame),
    ∃ x', ps.foldl (fun s p => s.addLocal p) (GenSt.mk (x :: y)) = GenSt.mk (x' :: y) := by
  induction ps with
  | nil => intro x y; exact ⟨x, rfl⟩
  | cons p rest ih =>
      intro x y
      obtain ⟨x', hx⟩ := ih
        { x with locals := x.locals ++ [{ name := p, depth := x.scopeDepth, isCaptured := false }] } y
      exact ⟨x', by simpa [List.foldl_cons, GenSt.addLocal, GenSt.mapCur] using hx⟩

theorem emitConstant_cons (x : CtxFrame) (y : List CtxFrame) (v : Value) (ln : Nat) :
    (GenSt.mk (x :: y)).emitConstant v ln =
      GenSt.mk ({ x with chunk := ((x.chunk.addConstant v).2.write Op.PUSH_CONST ln).write (x.chunk.addConstant v).1 ln } :: y) :=
  rfl

theorem emit_nil (b ln : Nat) : (GenSt.mk []).emit b ln = GenSt.mk [] := rfl

theorem foldlEmit_nil (line : Nat) (ups : List UpvDesc) :
    ups.foldl (fun s u => (s.emit (if u.isLocal then 1 else 0) line).emit u.index line)
      (GenSt.mk []) = GenSt.mk [] := by
  induction ups with
  | nil => rfl
  | cons u rest ih => simpa [List.foldl_cons, emit_nil] using ih

theorem funcDeclTail_nil (fv : Value) (ups : List UpvDesc) (name : String) (line : Nat) :
    funcDeclTail (GenSt.mk []) fv ups name line = GenSt.mk [] := by
  simp only [funcDeclTail]
  rw [show (((GenSt.mk []).addConstCur fv).2.emitWithOperand Op.MAKE_CLOSURE
      ((GenSt.mk []).addConstCur fv).1 line) = GenSt.mk [] from rfl, foldlEmit_nil]
  rfl

theorem genPres_cons_shape {x : CtxFrame} {y : List CtxFrame} {b : GenSt}
    (h : GenPres (GenSt.mk (x :: y)) b) :
    ∃ x' y', b = GenSt.mk (x' :: y') ∧ x.chunk.code <+: x'.chunk.code ∧
      x.chunk.constants <+: x'.chunk.constants ∧ List.Forall₂ FramePres y y' := by
  obtain ⟨bs⟩ := b
  cases bs with
  | nil => exact absurd h (by simp [GenPres])
  | cons x' y' => exact ⟨x', y', rfl, h.1, h.2.1, h.2.2⟩

theorem genPres_all : ∀ n : Nat,
    (∀ e : Expr, sizeOf e = n → ∀ st, GenPres st (genExpr e st)) ∧
    (∀ es : List Expr, sizeOf es = n → ∀ st, GenPres st (genExprs es st)) ∧
    (∀ s : Stmt, sizeOf s = n → ∀ st, GenPres st (genStmt s st)) ∧
    (∀ ss : List Stmt, sizeOf ss = n → ∀ st, GenPres st (genStmts ss st)) := by
  intro n
  induction n using Nat.strong_induction_on with
  | _ n IH =>
  have IHe : ∀ (e : Expr), sizeOf e < n → ∀ st, GenPres st (genExpr e st) :=
    fun e h st => (IH _ h).1 e rfl st
  have IHes : ∀ (es : List Expr), sizeOf es < n → ∀ st, GenPres st (genExprs es st) :=
    fun es h st => (IH _ h).2.1 es rfl st
  have IHs : ∀ (s : Stmt), sizeOf s < n → ∀ st, GenPres st (genStmt s st) :=
    fun s h st => (IH _ h).2.2.1 s rfl st
  have IHss : ∀ (ss : List Stmt), sizeOf ss < n → ∀ st, GenPres st (genStmts ss st) :=
    fun ss h st => (IH _ h).2.2.2 ss rfl st
  refine ⟨?_, ?_, ?_, ?_⟩
  · intro e hn st
    cases e with
    | numberLit v line => simp only [genExpr]; exact genPres_emitConstant st _ _
    | stringLit v line => simp only [genExpr]; exact genPres_emitConstant st _ _
    | booleanLit v line => simp only [genExpr]; exact genPres_emitConstant st _ _
    | nullLit line => simp only [genExpr]; exact genPres_emitConstant st _ _
    | ident name line =>
        simp only [genExpr]
        cases hl : st.resolveLocal name with
        | some slot => exact genPres_emitWithOperand st _ _ _
        | none =>
            cases hres : resolveUpvalue st.contexts name with
            | mk r ctxs' =>
                have hfr : List.Forall₂ FramePres st.contexts ctxs' := by
                  have := resolveUpvalue_frames st.contexts name
                  rwa [hres] at this
                have hpres : GenPres st (GenSt.mk ctxs') := genPres_of_forall₂ hfr
                cases r with
                | some u =>
                    exact genPres_trans hpres (genPres_emitWithOperand _ _ _ _)
                | none =>
                    exact genPres_trans hpres (genPres_trans (genPres_addConstCur _ _)
                      (genPres_emitWithOperand _ _ _ _))
    | binary op l r line =>
        simp only [genExpr]
        have hl : sizeOf l < n := by simp at hn; omega
        have hr : sizeOf r < n := by simp at hn; omega
        exact genPres_trans (IHe l hl st)
          (genPres_trans (IHe r hr _) (genPres_emit _ _ _))
    | logical op l r line =>
        have hl : sizeOf l < n := by cases op <;> simp at hn <;> omega
        have hr : sizeOf r < n := by cases op <;> simp at hn <;> omega
        cases op with
        | lwith =>
            simp only [genExpr]
            refine genPres_patchJump _ ?_ ?_
            · exact genPres_trans (IHe l hl st) (genPres_trans (genPres_emitJump _ _ _)
                (genPres_trans (genPres_emit _ _ _) (IHe r hr _)))
            · have := genPres_code_le (IHe l hl st)
              show st.code.length ≤ (genExpr l st).code.length + 1
              omega
        | leither =>
            simp only [genExpr]
            refine genPres_patchJump _ ?_ ?_
            · refine genPres_trans (genPres_patchJump _ ?_ ?_)
                (genPres_trans (genPres_emit _ _ _) (IHe r hr _))
              · exact genPres_trans (IHe l hl st) (genPres_trans (genPres_emitJump _ _ _)
                  (genPres_emitJump _ _ _))
              · have := genPres_code_le (IHe l hl st)
                show st.code.length ≤ (genExpr l st).code.length + 1
                omega
            · have h3 := genPres_code_le (genPres_trans (IHe l hl st)
                (genPres_emitJump (genExpr l st) Op.JUMP_IF_FALSE line))
              show st.code.length ≤ ((genExpr l st).emitJump Op.JUMP_IF_FALSE line).1.code.length + 1
              omega
    | call callee args line =>
        simp only [genExpr]
        have hc : sizeOf callee < n := by simp at hn; omega
        have ha : sizeOf args < n := by simp at hn; omega
        exact genPres_trans (IHe callee hc st) (genPres_trans (IHes args ha _)
          (genPres_trans (genPres_emit _ _ _) (genPres_emit _ _ _)))
  · intro es hn st
    cases es with
    | nil => simp only [genExprs]; exact genPres_refl st
    | cons e rest =>
        simp only [genExprs]
        have he : sizeOf e < n := by simp at hn; omega
        have hr : sizeOf rest < n := by simp at hn; omega
        exact genPres_trans (IHe e he st) (IHes rest hr _)
  · intro s hn st
    cases s with
    | exprStmt e line =>
        simp only [genStmt]
        have he : sizeOf e < n := by simp at hn; omega
        exact genPres_trans (IHe e he st) (genPres_emit _ _ _)
    | printStmt e line =>
        simp only [genStmt]
        have he : sizeOf e < n := by simp at hn; omega
        exact genPres_trans (IHe e he st) (genPres_emit _ _ _)
    | varDecl name value line =>
        simp only [genStmt]
        have hv : sizeOf value < n := by simp at hn; omega
        split
        · exact genPres_trans (IHe value hv st) (genPres_addLocal _ _)
        · exact genPres_trans (IHe value hv st) (genPres_trans (genPres_addConstCur _ _)
            (genPres_trans (genPres_emitWithOperand _ _ _ _) (genPres_emit _ _ _)))
    | assign name value line =>
        simp only [genStmt]
        have hv : sizeOf value < n := by simp at hn; omega
        cases hl : (genExpr value st).resolveLocal name with
        | some slot =>
            exact genPres_trans (IHe value hv st) (genPres_emitWithOperand _ _ _ _)
        | none =>
            cases hres : resolveUpvalue (genExpr value st).contexts name with
            | mk r ctxs' =>
                have hfr : List.Forall₂ FramePres (genExpr value st).contexts ctxs' := by
                  have := resolveUpvalue_frames (genExpr value st).contexts name
                  rwa [hres] at this
                have hpres : GenPres (genExpr value st) (GenSt.mk ctxs') :=
                  genPres_of_forall₂ hfr
                cases r with
                | some u =>
                    exact genPres_trans (IHe value hv st)
                      (genPres_trans hpres (genPres_emitWithOperand _ _ _ _))
                | none =>
                    exact genPres_trans (IHe value hv st) (genPres_trans hpres
                      (genPres_trans (genPres_addConstCur _ _) (genPres_emitWithOperand _ _ _ _)))
    | block stmts =>
        simp only [genStmt]
        have hb : sizeOf stmts < n := by simp at hn; omega
        exact genPres_trans (genPres_beginScope st)
          (genPres_trans (IHss stmts hb _) (genPres_endScope _))
    | ret value line =>
        cases value with
        | some e =>
            simp only [genStmt]
            have he : sizeOf e < n := by simp at hn; omega
            exact genPres_trans (IHe e he st) (genPres_emit _ _ _)
        | none =>
            simp only [genStmt]
            exact genPres_trans (genPres_emitConstant st _ _) (genPres_emit _ _ _)
    | funcDecl name params body line =>
        simp only [genStmt]
        have hb : sizeOf body < n := by simp at hn; omega
        obtain ⟨ctxs⟩ := st
        cases ctxs with
        | nil =>
            obtain ⟨x3, hx3⟩ := addLocals_cons params
              { chunk := ⟨[], [], []⟩, locals := [], upvalues := [], scopeDepth := 0 + 1 } []
            rw [show (GenSt.mk [({ chunk := ⟨[], [], []⟩, locals := [], upvalues := [], scopeDepth := 0 } : CtxFrame)]).beginScope = GenSt.mk [({ chunk := ⟨[], [], []⟩, locals := [], upvalues := [], scopeDepth := 0 + 1 } : CtxFrame)] from rfl, hx3]
            obtain ⟨x4, y4, hst4, _, _, hf4⟩ := genPres_cons_shape (IHss body hb (GenSt.mk [x3]))
            cases hf4
            rw [hst4, emitConstant_cons, emit_contexts]
            dsimp only
            rw [funcDeclTail_nil]
            trivial
        | cons c t =>
            obtain ⟨x3, hx3⟩ := addLocals_cons params
              { chunk := ⟨[], [], []⟩, locals := [], upvalues := [], scopeDepth := 0 + 1 } (c :: t)
            rw [show (GenSt.mk (({ chunk := ⟨[], [], []⟩, locals := [], upvalues := [], scopeDepth := 0 } : CtxFrame) :: c :: t)).beginScope = GenSt.mk (({ chunk := ⟨[], [], []⟩, locals := [], upvalues := [], scopeDepth := 0 + 1 } : CtxFrame) :: c :: t) from rfl, hx3]
            obtain ⟨x4, y4, hst4, _, _, hf4⟩ := genPres_cons_shape (IHss body hb (GenSt.mk (x3 :: c :: t)))
            rcases hf4 with _ | ⟨hc4, ht4⟩
            rename_i c4 t4
            rw [hst4, emitConstant_cons, emit_contexts]
            dsimp only
            obtain ⟨c', k, nameIdx, htail, hcode, hconsts, _, _, _⟩ :=
              funcTail_spec c4 t4 (.vfunc ⟨name, params.length, _, _⟩) _ name line
            rw [htail]
            refine ⟨?_, ?_, ?_⟩
            · rw [hcode, hc4.1]
              exact ((List.prefix_append _ _).trans (List.prefix_append _ _)).trans
                (List.prefix_append _ _)
            · exact hc4.1 ▸ hconsts
            · exact ht4
  · intro ss hn st
    cases ss with
    | nil => simp only [genStmts]; exact genPres_refl st
    | cons s rest =>
        simp only [genStmts]
        have hs : sizeOf s < n := by simp at hn; omega
        have hr : sizeOf rest < n := by simp at hn; omega
        exact genPres_trans (IHs s hs st) (IHss rest hr _)

/-- Every expression visitor only extends the current chunk and
preserves the enclosing contexts. -/
theorem genExpr_pres (e : Expr) (st : GenSt) : GenPres st (genExpr e st) :=
  (genPres_all (sizeOf e)).1 e rfl st

/-- Every statement-list visit only extends the current chunk and
preserves the enclosing contexts. -/
theorem genStmts_pres (ss : List Stmt) (st : GenSt) : GenPres st (genStmts ss st) :=
  (genPres_all (sizeOf ss)).2.2.2 ss rfl st

theorem set_append_second {α : Type} (X : List α) (a bv : α) (Z : List α) (v : α) :
    (X ++ a :: bv :: Z).set (X.length + 1) v = X ++ a :: v :: Z := by
  induction X with
  | nil => rfl
  | cons x rest ih => simpa using ih

theorem get?_append_len {α : Type} (X : List α) (z : α) (R : List α) :
    (X ++ z :: R).get? X.length = some z := by
  rw [List.get?_eq_getElem?, List.getElem?_append_right le_rfl]
  simp

theorem get?_append_len_succ {α : Type} (X : List α) (z w : α) (R : List α) :
    (X ++ z :: w :: R).get? (X.length + 1) = some w := by
  rw [List.get?_eq_getElem?, List.getElem?_append_right (by omega)]
  simp

/-- One fetch–decode–execute iteration at a `JUMP_IF_FALSE` whose peeked
top of stack is falsy: the ip advances past the operand and then by the
offset; nothing else — stack, globals, upvalues, output — changes. -/
theorem step_jif (H : HostEnv) (s : VMState) (fr : Frame) (rest : List Frame) (off : Nat)
    (hfr : s.frames = fr :: rest)
    (hop : fr.closure.chunk.code.get? fr.ip = some Op.JUMP_IF_FALSE)
    (hoff : fr.closure.chunk.code.get? (fr.ip + 1) = some off)
    (hfalsy : isTruthy ((s.stack.getLast?).getD .vundef) = false) :
    step H s = .ok (.next { s with frames := { fr with ip := fr.ip + 2 + off } :: rest }) := by
  obtain ⟨stk, g, frs, ou, cu, nid, out⟩ := s
  simp only at hfr hfalsy ⊢
  subst hfr
  simp only [step, hop, hoff]
  norm_num [Op.PUSH_CONST, Op.POP, Op.DUP, Op.ADD, Op.DIV, Op.MOD, Op.NOT, Op.LOAD,
    Op.STORE, Op.LOAD_GLOBAL, Op.STORE_GLOBAL, Op.JUMP, Op.JUMP_IF_FALSE, hfalsy]

/-- **C9**.  Lowering `a with b` emits `code(a)`, a `JUMP_IF_FALSE` over
`POP ++ code(b)` (patched to land just past `b`'s code), and `code(b)`.
Executing the `JUMP_IF_FALSE` with the (unpopped) value of `a` on top
and falsy moves the ip in one step to the end of the whole expression:
none of `b`'s instructions runs, no effect of `b` (stack, globals,
output, upvalues) occurs, and the preserved top of stack — the value of
the whole expression — is the value of `a`. -/
theorem claim9_theorem (st : GenSt) (c : CtxFrame) (t : List CtxFrame) (a b : Expr)
    (line : Nat) (hctx : st = GenSt.mk (c :: t)) :
    ∃ (A B : List Nat) (c' : CtxFrame) (t' : List CtxFrame),
      (genExpr a st).code = c.chunk.code ++ A ∧
      genExpr (.logical .lwith a b line) st = GenSt.mk (c' :: t') ∧
      c'.chunk.code =
        (c.chunk.code ++ A) ++ Op.JUMP_IF_FALSE :: (B.length + 1) :: Op.POP :: B ∧
      c'.chunk.code.length = (c.chunk.code ++ A).length + 3 + B.length ∧
      (∀ (H : HostEnv) (s : VMState) (fr : Frame) (rest : List Frame) (ext : List Nat)
          (v : Value),
        s.frames = fr :: rest →
        fr.closure.chunk.code = c'.chunk.code ++ ext →
        fr.ip = (c.chunk.code ++ A).length →
        s.stack.getLast? = some v →
        isTruthy v = false →
        step H s = .ok (.next { s with frames :=
          { fr with ip := (c.chunk.code ++ A).length + 2 + (B.length + 1) } :: rest })) := by
  subst hctx
  obtain ⟨c1, t1, hst1, hprefA, _, _⟩ := genPres_cons_shape (genExpr_pres a (GenSt.mk (c :: t)))
  obtain ⟨A, hA⟩ := hprefA
  have hst2 : ((genExpr a (GenSt.mk (c :: t))).emitJump Op.JUMP_IF_FALSE line).1.emit
      Op.POP line =
      GenSt.mk ({ c1 with chunk := ((c1.chunk.write Op.JUMP_IF_FALSE line).write 0xFF line).write Op.POP line } :: t1) := by
    rw [hst1]; rfl
  obtain ⟨c3, t3, hst3, hprefB, _, _⟩ := genPres_cons_shape (genExpr_pres b
    (GenSt.mk ({ c1 with chunk := ((c1.chunk.write Op.JUMP_IF_FALSE line).write 0xFF line).write Op.POP line } :: t1)))
  obtain ⟨B, hB⟩ := hprefB
  simp only [Chunk.code_write] at hB
  have hc3code : c3.chunk.code =
      c1.chunk.code ++ Op.JUMP_IF_FALSE :: (0xFF : Nat) :: Op.POP :: B := by
    rw [← hB]; simp
  have hoffv : (genExpr a (GenSt.mk (c :: t))).code.length = c1.chunk.code.length := by
    rw [hst1]; rfl
  have hgen : genExpr (.logical .lwith a b line) (GenSt.mk (c :: t)) =
      GenSt.mk ({ c3 with chunk := ⟨c3.chunk.code.set (c1.chunk.code.length + 1) (c3.chunk.code.length - c1.chunk.code.length - 2), c3.chunk.constants, c3.chunk.lines⟩ } :: t3) := by
    simp only [genExpr]
    rw [hst2, hst3]
    simp only [GenSt.patchJump, GenSt.mapCur, GenSt.emitJump]
    rw [hoffv]
  have hval : c3.chunk.code.length - c1.chunk.code.length - 2 = B.length + 1 := by
    rw [hc3code]; simp
  have hset : c3.chunk.code.set (c1.chunk.code.length + 1)
      (c3.chunk.code.length - c1.chunk.code.length - 2) =
      c1.chunk.code ++ Op.JUMP_IF_FALSE :: (B.length + 1) :: Op.POP :: B := by
    rw [hval, hc3code, set_append_second]
  refine ⟨A, B, _, t3, by rw [hst1, GenSt.code, hA], hgen, ?_, ?_, ?_⟩
  · show c3.chunk.code.set (c1.chunk.code.length + 1)
        (c3.chunk.code.length - c1.chunk.code.length - 2) = _
    rw [hset, hA]
  · show (c3.chunk.code.set (c1.chunk.code.length + 1)
        (c3.chunk.code.length - c1.chunk.code.length - 2)).length = _
    rw [hset, hA]
    simp
    omega
  · intro H s fr rest ext v hfrs hcode hip htop hfalsy
    have hcode' : fr.closure.chunk.code =
        (c.chunk.code ++ A) ++ Op.JUMP_IF_FALSE :: (B.length + 1) :: Op.POP :: (B ++ ext) := by
      rw [hcode]
      show c3.chunk.code.set (c1.chunk.code.length + 1)
          (c3.chunk.code.length - c1.chunk.code.length - 2) ++ ext = _
      rw [hset, hA]
      simp
    have hop : fr.closure.chunk.code.get? fr.ip = some Op.JUMP_IF_FALSE := by
      rw [hcode', hip]
      exact get?_append_len _ _ _
    have hoff : fr.closure.chunk.code.get? (fr.ip + 1) = some (B.length + 1) := by
      rw [hcode', hip]
      exact get?_append_len_succ _ _ _ _
    have := step_jif H s fr rest (B.length + 1) hfrs hop hoff (by rw [htop]; exact hfalsy)
    rw [this, hip]

/-- **C9**, witness: the `with`-lowering theorem applied to the concrete
expression `sauron with shadow` compiled in a fresh context. -/
theorem claim9_witness :
    ∃ (A B : List Nat) (c' : CtxFrame) (t' : List CtxFrame),
      (genExpr (.booleanLit false 1) (GenSt.mk [testCtx])).code = testCtx.chunk.code ++ A ∧
      genExpr (.logical .lwith (.booleanLit false 1) (.nullLit 1) 1) (GenSt.mk [testCtx]) =
        GenSt.mk (c' :: t') ∧
      c'.chunk.code =
        (testCtx.chunk.code ++ A) ++ Op.JUMP_IF_FALSE :: (B.length + 1) :: Op.POP :: B ∧
      c'.chunk.code.length = (testCtx.chunk.code ++ A).length + 3 + B.length ∧
      (∀ (H : HostEnv) (s : VMState) (fr : Frame) (rest : List Frame) (ext : List Nat)
          (v : Value),
        s.frames = fr :: rest →
        fr.closure.chunk.code = c'.chunk.code ++ ext →
        fr.ip = (testCtx.chunk.code ++ A).length →
        s.stack.getLast? = some v →
        isTruthy v = false →
        step H s = .ok (.next { s with frames :=
          { fr with ip := (testCtx.chunk.code ++ A).length + 2 + (B.length + 1) } :: rest })) :=
  claim9_theorem (GenSt.mk [testCtx]) testCtx [] (.booleanLit false 1) (.nullLit 1) 1 rfl

/-- **C10**.  `visitFunctionDeclaration`, at *any* scope depth: the
function closure is bound with `STORE_GLOBAL` under the declared name
(followed by the statement's `POP`), the name is interned as a string
constant at the emitted operand index, and the enclosing context gains
*no* local — its locals keep exactly their names and depths and its
scope depth is unchanged — so a function declared inside a block or
another function becomes a global binding, never a local slot. -/
theorem claim10_theorem (st : GenSt) (c : CtxFrame) (t : List CtxFrame)
    (name : String) (params : List String) (body : List Stmt) (line : Nat)
    (hctx : st = GenSt.mk (c :: t)) :
    ∃ (c' : CtxFrame) (t' : List CtxFrame) (k nameIdx : Nat) (descs : List Nat),
      genStmt (.funcDecl name params body line) st = GenSt.mk (c' :: t') ∧
      c'.chunk.code = c.chunk.code ++ [Op.MAKE_CLOSURE, k] ++ descs ++
        [Op.STORE_GLOBAL, nameIdx, Op.POP] ∧
      c'.chunk.constants.get? nameIdx = some (.vstr name) ∧
      c'.locals.map (fun l => (l.name, l.depth)) = c.locals.map (fun l => (l.name, l.depth)) ∧
      c'.scopeDepth = c.scopeDepth ∧
      List.Forall₂ FramePres t t' := by
  subst hctx
  simp only [genStmt]
  obtain ⟨x3, hx3⟩ := addLocals_cons params
    { chunk := ⟨[], [], []⟩, locals := [], upvalues := [], scopeDepth := 0 + 1 } (c :: t)
  rw [show (GenSt.mk (({ chunk := ⟨[], [], []⟩, locals := [], upvalues := [], scopeDepth := 0 } : CtxFrame) :: c :: t)).beginScope = GenSt.mk (({ chunk := ⟨[], [], []⟩, locals := [], upvalues := [], scopeDepth := 0 + 1 } : CtxFrame) :: c :: t) from rfl, hx3]
  obtain ⟨x4, y4, hst4, _, _, hf4⟩ := genPres_cons_shape (genStmts_pres body (GenSt.mk (x3 :: c :: t)))
  rcases hf4 with _ | ⟨hc4, ht4⟩
  rename_i c4 t4
  rw [hst4, emitConstant_cons, emit_contexts]
  dsimp only
  obtain ⟨c', k, nameIdx, htail, hcode, _, hget, hlocs, hscope⟩ :=
    funcTail_spec c4 t4 (.vfunc ⟨name, params.length, _, _⟩) _ name line
  rw [htail]
  refine ⟨c', t4, k, nameIdx, descBytes x4.upvalues, rfl, ?_, hget, ?_, ?_, ht4⟩
  · rw [hcode, hc4.1]
  · rw [hlocs]
    exact hc4.2.2.1
  · rw [hscope]
    exact hc4.2.1

/-- **C10**, witness: a function declaration compiled in a context three
block scopes deep still stores globally, adds no local, and keeps the
scope depth. -/
theorem claim10_witness :
    ∃ (c' : CtxFrame) (t' : List CtxFrame) (k nameIdx : Nat) (descs : List Nat),
      genStmt (.funcDecl "f" [] [] 1) (GenSt.mk [testCtxDeep]) = GenSt.mk (c' :: t') ∧
      c'.chunk.code = testCtxDeep.chunk.code ++ [Op.MAKE_CLOSURE, k] ++ descs ++
        [Op.STORE_GLOBAL, nameIdx, Op.POP] ∧
      c'.chunk.constants.get? nameIdx = some (.vstr "f") ∧
      c'.locals.map (fun l => (l.name, l.depth)) =
        testCtxDeep.locals.map (fun l => (l.name, l.depth)) ∧
      c'.scopeDepth = testCtxDeep.scopeDepth ∧
      List.Forall₂ FramePres [] t' :=
  claim10_theorem (GenSt.mk [testCtxDeep]) testCtxDeep [] "f" [] [] 1 rfl

/-! ## Serializer lemmas -/

lemma exceptBindOk {α β γ : Type} (a : α) (f : α → Except γ β) :
    (Except.ok a >>= f) = f a := rfl

lemma exceptBindErr {α β γ : Type} (e : γ) (f : α → Except γ β) :
    ((Except.error e : Except γ α) >>= f) = Except.error e := rfl

lemma readBytes_append (xs rest : List Nat) :
    readBytes xs.length (xs ++ rest) = (xs.map some, rest) := by
  induction xs with
  | nil => rfl
  | cons a t ih => simp [readBytes, readByte, ih]

lemma map_mod_eq_self (xs : List Nat) (h : xs.all (· < 256) = true) :
    xs.map (· % 256) = xs := by
  induction xs with
  | nil => rfl
  | cons a t ih =>
      simp only [List.all_cons, Bool.and_eq_true, decide_eq_true_eq] at h
      simp [Nat.mod_eq_of_lt h.1, ih h.2]

lemma readUint16_write (v : Nat) (rest : List Nat) (hv : v < 2 ^ 16) :
    readUint16 (writeUint16 v ++ rest) = (v, rest) := by
  simp [writeUint16, readUint16, readByte, orZero]
  omega

lemma readUint32_write (v : Nat) (rest : List Nat) (hv : v < 2 ^ 31) :
    readUint32 (writeUint32 v ++ rest) = ((v : Int), rest) := by
  have h32 : v % 2 ^ 32 = v := Nat.mod_eq_of_lt (by omega)
  simp only [writeUint32, readUint32, readByte, orZero, List.cons_append, List.nil_append]
  rw [show v / 2 ^ 24 % 256 * 2 ^ 24 + v / 2 ^ 16 % 256 * 2 ^ 16 + v / 2 ^ 8 % 256 * 2 ^ 8 +
    v % 256 = v by omega]
  simp only [toInt32, h32]
  rw [if_pos hv]

lemma orZero_comp_some : orZero ∘ some = id := rfl

lemma readString_write (E : SerEnv) (s : String) (rest : List Nat) (h : wfStrB E s = true) :
    readString E (writeString E s ++ rest) = (s, rest) := by
  simp only [wfStrB, Bool.and_eq_true, decide_eq_true_eq, beq_iff_eq] at h
  obtain ⟨⟨h1, h2⟩, h3⟩ := h
  simp only [readString, writeString]
  rw [List.append_assoc, map_mod_eq_self _ h2, readUint32_write _ _ h1]
  simp only [Int.toNat_natCast]
  rw [readBytes_append]
  simp [List.map_map, orZero_comp_some, h3]

lemma readFloat64_write (E : SerEnv) (n : JsN) (rest : List Nat) (h : wfNumB E n = true) :
    readFloat64 E (writeFloat64 E n ++ rest) = (n, rest) := by
  simp only [wfNumB, Bool.and_eq_true, beq_iff_eq] at h
  obtain ⟨⟨h1, h2⟩, h3⟩ := h
  simp only [readFloat64, writeFloat64]
  rw [map_mod_eq_self _ h2, show (8 : Nat) = (E.f64enc n).length from h1.symm, readBytes_append]
  simp [List.map_map, orZero_comp_some, h3]

lemma readCodeBytes_append (xs rest : List Nat) :
    readCodeBytes xs.length (xs ++ rest) = (xs, rest) := by
  induction xs with
  | nil => rfl
  | cons a t ih => simp [readCodeBytes, readByte, orZero, ih]

lemma readLines_writeLines (ls rest : List Nat) (h : ls.all (· < 2 ^ 16) = true) :
    readLines ls.length (writeLines ls ++ rest) = (ls, rest) := by
  induction ls with
  | nil => rfl
  | cons a t ih =>
      simp only [List.all_cons, Bool.and_eq_true, decide_eq_true_eq] at h
      simp only [writeLines, List.length_cons, readLines, List.append_assoc]
      rw [readUint16_write _ _ h.1]
      simp [ih h.2]

lemma funcCount_pos (f : BCFunc) : 1 ≤ funcCount f := by
  cases f with
  | mk name arity up ch =>
      cases ch with
      | mk code consts lines =>
          simp [funcCount]

lemma serConstants_spec (E : SerEnv) :
    ∀ (cs : List Value) (i : Nat), wfConsts E cs = true →
      i + constsFuncCount cs ≤ 2 ^ 31 →
      ∃ bs, serConstants E cs i = .ok (bs, i + constsFuncCount cs) ∧
        ∀ rest, readConstants E cs.length (bs ++ rest) = .ok (rawOfConsts cs i, rest) := by
  intro cs
  induction cs with
  | nil =>
      refine fun i _ _ => ⟨[], by simp [serConstants, constsFuncCount], fun rest => by
        simp [readConstants, rawOfConsts]⟩
  | cons v t ih =>
      intro i hwf hbound
      simp only [wfConsts, Bool.and_eq_true] at hwf
      obtain ⟨hv, ht⟩ := hwf
      cases v with
      | vnull =>
          obtain ⟨bs, hser, hread⟩ := ih i ht
            (by simp only [constsFuncCount] at hbound ⊢; omega)
          refine ⟨writeByte TYPE_NULL ++ bs, ?_, fun rest => ?_⟩
          · simp only [serConstants, hser, exceptBindOk]
            simp [constsFuncCount]
          · simp only [List.length_cons]
            simp [readConstants, readConstant, readByte, writeByte, TYPE_NULL, TYPE_BOOL, TYPE_NUMBER, TYPE_STRING, TYPE_FUNCTION, hread rest,
              rawOfConsts, rawOfConst, exceptBindOk]
      | vbool b =>
          obtain ⟨bs, hser, hread⟩ := ih i ht
            (by simp only [constsFuncCount] at hbound ⊢; omega)
          refine ⟨writeByte TYPE_BOOL ++ writeByte (if b then 1 else 0) ++ bs, ?_, fun rest => ?_⟩
          · simp only [serConstants, hser, exceptBindOk]
            simp [constsFuncCount]
          · simp only [List.length_cons]
            cases b <;>
              simp [readConstants, readConstant, readByte, writeByte, TYPE_NULL, TYPE_BOOL, TYPE_NUMBER, TYPE_STRING, TYPE_FUNCTION, hread rest,
                rawOfConsts, rawOfConst, exceptBindOk]
      | vnum n =>
          have hnum : wfNumB E n = true := by simpa [wfConst] using hv
          obtain ⟨bs, hser, hread⟩ := ih i ht
            (by simp only [constsFuncCount] at hbound ⊢; omega)
          refine ⟨writeByte TYPE_NUMBER ++ writeFloat64 E n ++ bs, ?_, fun rest => ?_⟩
          · simp only [serConstants, hser, exceptBindOk]
            simp [constsFuncCount]
          · simp only [List.length_cons]
            simp [readConstants, readConstant, readByte, writeByte, TYPE_NULL, TYPE_BOOL, TYPE_NUMBER, TYPE_STRING, TYPE_FUNCTION,
              List.append_assoc, readFloat64_write E n (bs ++ rest) hnum, hread rest,
              rawOfConsts, rawOfConst, exceptBindOk]
      | vstr s =>
          have hstr : wfStrB E s = true := by simpa [wfConst] using hv
          obtain ⟨bs, hser, hread⟩ := ih i ht
            (by simp only [constsFuncCount] at hbound ⊢; omega)
          refine ⟨writeByte TYPE_STRING ++ writeString E s ++ bs, ?_, fun rest => ?_⟩
          · simp only [serConstants, hser, exceptBindOk]
            simp [constsFuncCount]
          · simp only [List.length_cons]
            simp [readConstants, readConstant, readByte, writeByte, TYPE_NULL, TYPE_BOOL, TYPE_NUMBER, TYPE_STRING, TYPE_FUNCTION,
              List.append_assoc, readString_write E s (bs ++ rest) hstr, hread rest,
              rawOfConsts, rawOfConst, exceptBindOk]
      | vfunc f =>
          have hcfc : constsFuncCount (Value.vfunc f :: t) = funcCount f + constsFuncCount t := by
            simp [constsFuncCount]
          obtain ⟨bs, hser, hread⟩ := ih (i + funcCount f) ht (by rw [hcfc] at hbound; omega)
          have hilt : i < 2 ^ 31 := by
            have := funcCount_pos f; rw [hcfc] at hbound; omega
          refine ⟨writeByte TYPE_FUNCTION ++ writeUint32 i ++ bs, ?_, fun rest => ?_⟩
          · simp only [serConstants, hser, exceptBindOk]
            simp only [hcfc]
            simp [Nat.add_assoc]
          · simp only [List.length_cons]
            simp [readConstants, readConstant, readByte, writeByte, TYPE_NULL, TYPE_BOOL, TYPE_NUMBER, TYPE_STRING, TYPE_FUNCTION,
              List.append_assoc, readUint32_write i (bs ++ rest) hilt, hread rest,
              rawOfConsts, rawOfConst, exceptBindOk]
      | varr id => simp [wfConst] at hv
      | vobj id => simp [wfConst] at hv
      | vundef => simp [wfConst] at hv
      | vnative name arity fnId => simp [wfConst] at hv
      | vclosure c => simp [wfConst] at hv

lemma serFunction_spec (E : SerEnv) (f : BCFunc) (i : Nat) (hwf : wfFunc E f = true)
    (hbound : i + funcCount f ≤ 2 ^ 31) :
    ∃ bs, serFunction E f i = .ok bs ∧
      ∀ rest, readFunction E (bs ++ rest) = .ok (rawOfFunc f i, rest) := by
  cases f with
  | mk name arity up ch =>
  cases ch with
  | mk code consts lines =>
  simp only [wfFunc, wfChunk, Bool.and_eq_true, decide_eq_true_eq] at hwf
  obtain ⟨⟨⟨hname, harity⟩, hup⟩, ⟨⟨⟨⟨hcode, hclen⟩, hlines⟩, hllen⟩, hklen⟩, hconsts⟩ := hwf
  have hfc : funcCount (.mk name arity up (.mk code consts lines)) =
      1 + constsFuncCount consts := by simp [funcCount]
  rw [hfc] at hbound
  obtain ⟨cbs, hser, hread⟩ := serConstants_spec E consts (i + 1) hconsts (by omega)
  refine ⟨writeString E name ++ writeUint16 arity ++ writeUint16 up ++
    writeUint32 consts.length ++ cbs ++ writeUint32 code.length ++ code.map (· % 256) ++
    writeUint32 lines.length ++ writeLines lines, ?_, fun rest => ?_⟩
  · simp only [serFunction, Chunk.constants, Chunk.code, Chunk.lines, hser, exceptBindOk]
  · simp only [List.append_assoc]
    rw [map_mod_eq_self code hcode]
    simp only [readFunction, readString_write, readUint16_write, readUint32_write,
      Int.toNat_natCast, readCodeBytes_append, readLines_writeLines, hread, exceptBindOk,
      hname, harity, hup, hclen, hllen, hklen, hlines, rawOfFunc,
      Chunk.constants, Chunk.code, Chunk.lines]

lemma readFunctions_add (E : SerEnv) (m n : Nat) :
    ∀ (buf : List Nat) (l1 : List RawFunc) (r1 : List Nat) (l2 : List RawFunc) (r2 : List Nat),
      readFunctions E m buf = .ok (l1, r1) → readFunctions E n r1 = .ok (l2, r2) →
      readFunctions E (m + n) buf = .ok (l1 ++ l2, r2) := by
  induction m with
  | zero =>
      intro buf l1 r1 l2 r2 h1 h2
      simp only [readFunctions, Except.ok.injEq, Prod.mk.injEq] at h1
      obtain ⟨h1a, h1b⟩ := h1
      subst h1a; subst h1b
      simpa [Nat.zero_add] using h2
  | succ k ih =>
      intro buf l1 r1 l2 r2 h1 h2
      rw [show k + 1 + n = k + n + 1 by omega]
      simp only [readFunctions] at h1 ⊢
      cases hfb : readFunction E buf with
      | error e => rw [hfb] at h1; simp [exceptBindErr] at h1
      | ok rb =>
          rw [hfb] at h1
          simp only [exceptBindOk] at h1
          cases hk : readFunctions E k rb.2 with
          | error e => rw [hk] at h1; simp [exceptBindErr] at h1
          | ok rk =>
              rw [hk] at h1
              simp only [exceptBindOk, Except.ok.injEq, Prod.mk.injEq] at h1
              obtain ⟨h1a, h1b⟩ := h1
              rw [exceptBindOk]
              rw [ih rb.2 rk.1 rk.2 l2 r2 hk (by rw [h1b]; exact h2)]
              simp [exceptBindOk, ← h1a]

lemma rawLen : ∀ n : Nat,
    (∀ (f : BCFunc) (i : Nat), sizeOf f ≤ n → (rawList f i).length = funcCount f) ∧
    (∀ (cs : List Value) (i : Nat), sizeOf cs ≤ n →
      (rawForest cs i).length = constsFuncCount cs) := by
  intro n
  induction n using Nat.strong_induction_on with
  | _ n ih =>
    constructor
    · intro f i hsz
      cases f with
      | mk name arity up ch =>
      cases ch with
      | mk code consts lines =>
      have hlt : sizeOf consts + 1 ≤ n := by
        have : sizeOf consts <
            sizeOf (BCFunc.mk name arity up (Chunk.mk code consts lines)) := by
          simp; omega
        omega
      have hn : 1 ≤ n := by omega
      rw [rawList, funcCount]
      simp only [List.length_cons]
      rw [(ih (n - 1) (by omega)).2 consts (i + 1) (by omega)]
      omega
    · intro cs i hsz
      cases cs with
      | nil => simp [rawForest, constsFuncCount]
      | cons v t =>
          have htlt : sizeOf t + 1 ≤ n := by
            have : sizeOf t < sizeOf (v :: t) := by simp
            omega
          cases v with
          | vfunc f =>
              have hflt : sizeOf f + 1 ≤ n := by
                have : sizeOf f < sizeOf (Value.vfunc f :: t) := by simp; omega
                omega
              rw [show rawForest (Value.vfunc f :: t) i =
                  rawList f i ++ rawForest t (i + funcCount f) by rw [rawForest]]
              rw [show constsFuncCount (Value.vfunc f :: t) =
                  funcCount f + constsFuncCount t by rw [constsFuncCount]]
              rw [List.length_append, (ih (n - 1) (by omega)).1 f i (by omega),
                (ih (n - 1) (by omega)).2 t (i + funcCount f) (by omega)]
          | vnull =>
              simp only [rawForest, constsFuncCount]
              exact (ih (n - 1) (by omega)).2 t i (by omega)
          | vbool b =>
              simp only [rawForest, constsFuncCount]
              exact (ih (n - 1) (by omega)).2 t i (by omega)
          | vnum m =>
              simp only [rawForest, constsFuncCount]
              exact (ih (n - 1) (by omega)).2 t i (by omega)
          | vstr s =>
              simp only [rawForest, constsFuncCount]
              exact (ih (n - 1) (by omega)).2 t i (by omega)
          | varr id =>
              simp only [rawForest, constsFuncCount]
              exact (ih (n - 1) (by omega)).2 t i (by omega)
          | vobj id =>
              simp only [rawForest, constsFuncCount]
              exact (ih (n - 1) (by omega)).2 t i (by omega)
          | vundef =>
              simp only [rawForest, constsFuncCount]
              exact (ih (n - 1) (by omega)).2 t i (by omega)
          | vnative nm ar fnId =>
              simp only [rawForest, constsFuncCount]
              exact (ih (n - 1) (by omega)).2 t i (by omega)
          | vclosure c =>
              simp only [rawForest, constsFuncCount]
              exact (ih (n - 1) (by omega)).2 t i (by omega)

lemma rawList_length (f : BCFunc) (i : Nat) : (rawList f i).length = funcCount f :=
  (rawLen (sizeOf f)).1 f i le_rfl

lemma rawForest_length (cs : List Value) (i : Nat) :
    (rawForest cs i).length = constsFuncCount cs :=
  (rawLen (sizeOf cs)).2 cs i le_rfl

lemma serTree_all (E : SerEnv) : ∀ n : Nat,
    (∀ (f : BCFunc) (i : Nat), sizeOf f ≤ n → wfFunc E f = true → i + funcCount f ≤ 2 ^ 31 →
      ∃ bs, serTree E f i = .ok bs ∧
        ∀ rest, readFunctions E (funcCount f) (bs ++ rest) = .ok (rawList f i, rest)) ∧
    (∀ (cs : List Value) (i : Nat), sizeOf cs ≤ n → wfConsts E cs = true →
      i + constsFuncCount cs ≤ 2 ^ 31 →
      ∃ bs, serForest E cs i = .ok bs ∧
        ∀ rest, readFunctions E (constsFuncCount cs) (bs ++ rest) =
          .ok (rawForest cs i, rest)) := by
  intro n
  induction n using Nat.strong_induction_on with
  | _ n ih =>
    constructor
    · intro f i hsz hwf hbound
      obtain ⟨bodybs, hbser, hbread⟩ := serFunction_spec E f i hwf hbound
      cases f with
      | mk name arity up ch =>
      cases ch with
      | mk code consts lines =>
      have hlt : sizeOf consts + 1 ≤ n := by
        have : sizeOf consts <
            sizeOf (BCFunc.mk name arity up (Chunk.mk code consts lines)) := by
          simp; omega
        omega
      have hfc : funcCount (BCFunc.mk name arity up (Chunk.mk code consts lines)) =
          1 + constsFuncCount consts := by rw [funcCount]
      have hkwf : wfConsts E consts = true := by
        simp only [wfFunc, wfChunk, Bool.and_eq_true] at hwf
        exact hwf.2.2
      obtain ⟨kidbs, hkser, hkread⟩ := (ih (n - 1) (by omega)).2 consts (i + 1)
        (by omega) hkwf (by rw [hfc] at hbound; omega)
      refine ⟨bodybs ++ kidbs, ?_, fun rest => ?_⟩
      · simp only [serTree, hbser, hkser, exceptBindOk]
      · rw [hfc]
        have h1 : readFunctions E 1 (bodybs ++ (kidbs ++ rest)) =
            .ok ([rawOfFunc (BCFunc.mk name arity up (Chunk.mk code consts lines)) i],
              kidbs ++ rest) := by
          simp [readFunctions, hbread (kidbs ++ rest), exceptBindOk]
        rw [List.append_assoc]
        rw [readFunctions_add E 1 (constsFuncCount consts) _ _ _ _ _ h1 (hkread rest)]
        rw [rawList]
        simp
    · intro cs i hsz hwf hbound
      cases cs with
      | nil =>
          exact ⟨[], by simp [serForest], fun rest => by
            simp [readFunctions, rawForest, constsFuncCount]⟩
      | cons v t =>
          have htlt : sizeOf t + 1 ≤ n := by
            have : sizeOf t < sizeOf (v :: t) := by simp
            omega
          simp only [wfConsts, Bool.and_eq_true] at hwf
          obtain ⟨hv, ht⟩ := hwf
          cases v with
          | vfunc f =>
              have hflt : sizeOf f + 1 ≤ n := by
                have : sizeOf f < sizeOf (Value.vfunc f :: t) := by simp; omega
                omega
              have hcfc : constsFuncCount (Value.vfunc f :: t) =
                  funcCount f + constsFuncCount t := by rw [constsFuncCount]
              have hfwf : wfFunc E f = true := by simpa [wfConst] using hv
              obtain ⟨tbs, htser, htread⟩ := (ih (n - 1) (by omega)).1 f i (by omega) hfwf
                (by rw [hcfc] at hbound; omega)
              obtain ⟨rbs, hrser, hrread⟩ := (ih (n - 1) (by omega)).2 t (i + funcCount f)
                (by omega) ht (by rw [hcfc] at hbound; omega)
              refine ⟨tbs ++ rbs, ?_, fun rest => ?_⟩
              · simp only [serForest, htser, hrser, exceptBindOk]
              · rw [hcfc, List.append_assoc]
                rw [readFunctions_add E (funcCount f) (constsFuncCount t) _ _ _ _ _
                  (htread (rbs ++ rest)) (hrread rest)]
                rw [show rawForest (Value.vfunc f :: t) i =
                    rawList f i ++ rawForest t (i + funcCount f) from by rw [rawForest]]
          | vnull =>
              simp only [serForest, constsFuncCount, rawForest]
              exact (ih (n - 1) (by omega)).2 t i (by omega) ht
                (by simp only [constsFuncCount] at hbound; exact hbound)
          | vbool b =>
              simp only [serForest, constsFuncCount, rawForest]
              exact (ih (n - 1) (by omega)).2 t i (by omega) ht
                (by simp only [constsFuncCount] at hbound; exact hbound)
          | vnum q =>
              simp only [serForest, constsFuncCount, rawForest]
              exact (ih (n - 1) (by omega)).2 t i (by omega) ht
                (by simp only [constsFuncCount] at hbound; exact hbound)
          | vstr s =>
              simp only [serForest, constsFuncCount, rawForest]
              exact (ih (n - 1) (by omega)).2 t i (by omega) ht
                (by simp only [constsFuncCount] at hbound; exact hbound)
          | varr id =>
              simp only [serForest, constsFuncCount, rawForest]
              exact (ih (n - 1) (by omega)).2 t i (by omega) ht
                (by simp only [constsFuncCount] at hbound; exact hbound)
          | vobj id =>
              simp only [serForest, constsFuncCount, rawForest]
              exact (ih (n - 1) (by omega)).2 t i (by omega) ht
                (by simp only [constsFuncCount] at hbound; exact hbound)
          | vundef =>
              simp only [serForest, constsFuncCount, rawForest]
              exact (ih (n - 1) (by omega)).2 t i (by omega) ht
                (by simp only [constsFuncCount] at hbound; exact hbound)
          | vnative nm ar fnId =>
              simp only [serForest, constsFuncCount, rawForest]
              exact (ih (n - 1) (by omega)).2 t i (by omega) ht
                (by simp only [constsFuncCount] at hbound; exact hbound)
          | vclosure c =>
              simp only [serForest, constsFuncCount, rawForest]
              exact (ih (n - 1) (by omega)).2 t i (by omega) ht
                (by simp only [constsFuncCount] at hbound; exact hbound)

lemma serTree_spec (E : SerEnv) (f : BCFunc) (i : Nat) (hwf : wfFunc E f = true)
    (hbound : i + funcCount f ≤ 2 ^ 31) :
    ∃ bs, serTree E f i = .ok bs ∧
      ∀ rest, readFunctions E (funcCount f) (bs ++ rest) = .ok (rawList f i, rest) :=
  (serTree_all E (sizeOf f)).1 f i le_rfl hwf hbound

lemma optBindSome {α β : Type} (a : α) (f : α → Option β) : (some a >>= f) = f a := rfl

lemma resolve_ok (E : SerEnv) (R : List RawFunc) : ∀ fuel : Nat, ∀ (f : BCFunc) (i : Nat),
    wfFunc E f = true →
    funcCount f ≤ fuel →
    (∀ k, k < funcCount f → R.get? (i + k) = (rawList f i).get? k) →
    i + funcCount f ≤ R.length →
    resolveFunc R fuel i = some f := by
  intro fuel
  induction fuel using Nat.strong_induction_on with
  | _ fuel ihf =>
    intro f i hwf hfuel hseg hlen
    have hpos := funcCount_pos f
    obtain ⟨g, rfl⟩ : ∃ g, fuel = g + 1 := ⟨fuel - 1, by omega⟩
    cases f with
    | mk name arity up ch =>
    cases ch with
    | mk code consts lines =>
    have hfc : funcCount (BCFunc.mk name arity up (Chunk.mk code consts lines)) =
        1 + constsFuncCount consts := by rw [funcCount]
    have hget : R.get? i = some (rawOfFunc (BCFunc.mk name arity up
        (Chunk.mk code consts lines)) i) := by
      have := hseg 0 (by omega)
      simpa [rawList] using this
    have hkwf : wfConsts E consts = true := by
      simp only [wfFunc, wfChunk, Bool.and_eq_true] at hwf
      exact hwf.2.2
    have hg : constsFuncCount consts ≤ g := by rw [hfc] at hfuel; omega
    have key : ∀ (cs' : List Value) (j : Nat),
        wfConsts E cs' = true →
        constsFuncCount cs' ≤ g →
        (∀ k, k < (rawForest cs' j).length → R.get? (j + k) = (rawForest cs' j).get? k) →
        j + constsFuncCount cs' ≤ R.length →
        List.mapM (fun c => resolveConstWith (fun j' => resolveFunc R g j') R.length c)
          (rawOfConsts cs' j) = some cs' := by
      intro cs'
      induction cs' with
      | nil =>
          intro j _ _ _ _
          rw [show rawOfConsts ([] : List Value) j = [] from by rw [rawOfConsts]]
          rfl
      | cons v t iht =>
          intro j hwf' hg' hseg' hlen'
          simp only [wfConsts, Bool.and_eq_true] at hwf'
          obtain ⟨hv, ht⟩ := hwf'
          have hforest : rawForest (v :: t) j = rawForest (v :: t) j := rfl
          cases v with
          | vfunc f' =>
              have hfwf' : wfFunc E f' = true := by simpa [wfConst] using hv
              have hcfc : constsFuncCount (Value.vfunc f' :: t) =
                  funcCount f' + constsFuncCount t := by rw [constsFuncCount]
              have hfp := funcCount_pos f'
              have hjlt : j < R.length := by rw [hcfc] at hlen'; omega
              have hrf : rawForest (Value.vfunc f' :: t) j =
                  rawList f' j ++ rawForest t (j + funcCount f') := by rw [rawForest]
              have hlenF : (rawList f' j).length = funcCount f' := rawList_length f' j
              have hlenT : (rawForest t (j + funcCount f')).length = constsFuncCount t :=
                rawForest_length t (j + funcCount f')
              have hchild : resolveFunc R g j = some f' := by
                refine ihf g (by omega) f' j hfwf' (by rw [hcfc] at hg'; omega) ?_
                  (by rw [hcfc] at hlen'; omega)
                intro k hk
                have hk' : k < (rawForest (Value.vfunc f' :: t) j).length := by
                  rw [hrf, List.length_append, hlenF, hlenT]
                  omega
                have := hseg' k hk'
                rw [hrf] at this
                rwa [List.get?_append (by rw [hlenF]; omega)] at this
              have htail : List.mapM
                  (fun c => resolveConstWith (fun j' => resolveFunc R g j') R.length c)
                  (rawOfConsts t (j + funcCount f')) = some t := by
                refine iht (j + funcCount f') ht (by rw [hcfc] at hg'; omega) ?_
                  (by rw [hcfc] at hlen'; omega)
                intro k hk
                have hk' : funcCount f' + k < (rawForest (Value.vfunc f' :: t) j).length := by
                  rw [hrf, List.length_append, hlenF]
                  omega
                have := hseg' (funcCount f' + k) hk'
                rw [hrf, List.get?_append_right (by rw [hlenF]; omega)] at this
                rw [hlenF] at this
                rw [show j + (funcCount f' + k) = j + funcCount f' + k by omega] at this
                rw [show funcCount f' + k - funcCount f' = k by omega] at this
                exact this
              have hcond : (0 : Int) ≤ (j : Int) ∧ (j : Int) < (R.length : Int) :=
                ⟨Int.ofNat_nonneg j, by exact_mod_cast hjlt⟩
              rw [show rawOfConsts (Value.vfunc f' :: t) j =
                  .rfn (j : Int) :: rawOfConsts t (j + funcCount f') from by rw [rawOfConsts]]
              rw [List.mapM_cons]
              have hphi : resolveConstWith (fun j' => resolveFunc R g j') R.length
                  (RawConst.rfn (j : Int)) = some (Value.vfunc f') := by
                simp only [resolveConstWith]
                rw [if_pos hcond, Int.toNat_natCast, hchild]
                rfl
              rw [hphi, htail]
              rfl
          | vnull =>
              have hrw : rawOfConsts (Value.vnull :: t) j =
                  RawConst.rnull :: rawOfConsts t j := by simp [rawOfConsts, rawOfConst]
              rw [hrw, List.mapM_cons]
              rw [iht j ht (by simp only [constsFuncCount] at hg'; exact hg')
                (by intro k hk
                    have := hseg' k (by simpa only [rawForest] using hk)
                    simpa only [rawForest] using this)
                (by simp only [constsFuncCount] at hlen'; exact hlen')]
              rfl
          | vbool b =>
              have hrw : rawOfConsts (Value.vbool b :: t) j =
                  RawConst.rbool b :: rawOfConsts t j := by simp [rawOfConsts, rawOfConst]
              rw [hrw, List.mapM_cons]
              rw [iht j ht (by simp only [constsFuncCount] at hg'; exact hg')
                (by intro k hk
                    have := hseg' k (by simpa only [rawForest] using hk)
                    simpa only [rawForest] using this)
                (by simp only [constsFuncCount] at hlen'; exact hlen')]
              rfl
          | vnum q =>
              have hrw : rawOfConsts (Value.vnum q :: t) j =
                  RawConst.rnum q :: rawOfConsts t j := by simp [rawOfConsts, rawOfConst]
              rw [hrw, List.mapM_cons]
              rw [iht j ht (by simp only [constsFuncCount] at hg'; exact hg')
                (by intro k hk
                    have := hseg' k (by simpa only [rawForest] using hk)
                    simpa only [rawForest] using this)
                (by simp only [constsFuncCount] at hlen'; exact hlen')]
              rfl
          | vstr s =>
              have hrw : rawOfConsts (Value.vstr s :: t) j =
                  RawConst.rstr s :: rawOfConsts t j := by simp [rawOfConsts, rawOfConst]
              rw [hrw, List.mapM_cons]
              rw [iht j ht (by simp only [constsFuncCount] at hg'; exact hg')
                (by intro k hk
                    have := hseg' k (by simpa only [rawForest] using hk)
                    simpa only [rawForest] using this)
                (by simp only [constsFuncCount] at hlen'; exact hlen')]
              rfl
          | varr id => simp [wfConst] at hv
          | vobj id => simp [wfConst] at hv
          | vundef => simp [wfConst] at hv
          | vnative nm ar fnId => simp [wfConst] at hv
          | vclosure c => simp [wfConst] at hv
    have hseg2 : ∀ k, k < (rawForest consts (i + 1)).length →
        R.get? (i + 1 + k) = (rawForest consts (i + 1)).get? k := by
      intro k hk
      rw [rawForest_length] at hk
      have := hseg (k + 1) (by rw [hfc]; omega)
      rw [show i + (k + 1) = i + 1 + k by omega] at this
      simpa [rawList] using this
    have hkey := key consts (i + 1) hkwf hg hseg2 (by rw [hfc] at hlen; omega)
    simp only [resolveFunc, hget, rawOfFunc, Chunk.constants, Chunk.code, Chunk.lines]
    rw [hkey]
    rfl

/-- C3 (serialization round-trip): for every chunk whose constant pools
contain only serialisable values (null, booleans, numbers, strings and
nested bytecode functions, recursively), with the host codec guarantees
and the container's size bounds (16-bit arities and upvalue counts,
31-bit section lengths and function count, byte-ranged code), the
serialised container deserialises back to an equal chunk: identical code
bytes, identical line table, and constant-for-constant equal pools with
function constants resolved back, recursively, through their preorder
indices. -/
theorem claim3_theorem (E : SerEnv) (ch : Chunk)
    (hwf : wfChunk E ch = true)
    (hname : wfStrB E "__main__" = true)
    (hcount : funcCount (.mk "__main__" 0 0 ch) < 2 ^ 31) :
    ∃ bs, serialize E ch = .ok bs ∧ deserialize E bs = .ok ch := by
  have hwfF : wfFunc E (.mk "__main__" 0 0 ch) = true := by
    simp [wfFunc, hname, hwf]
  obtain ⟨bs, hser, hread⟩ := serTree_spec E (.mk "__main__" 0 0 ch) 0 hwfF (by omega)
  refine ⟨MAGIC ++ writeByte VERSION ++
    writeUint32 (funcCount (.mk "__main__" 0 0 ch)) ++ bs ++ writeUint32 0, ?_, ?_⟩
  · simp only [serialize, hser, exceptBindOk]
  · have hm : readBytes 5 (MAGIC ++ (writeByte VERSION ++
        (writeUint32 (funcCount (.mk "__main__" 0 0 ch)) ++ (bs ++ writeUint32 0)))) =
        (MAGIC.map some, writeByte VERSION ++
          (writeUint32 (funcCount (.mk "__main__" 0 0 ch)) ++ (bs ++ writeUint32 0))) :=
      readBytes_append MAGIC _
    have hv : readByte (writeByte VERSION ++
        (writeUint32 (funcCount (.mk "__main__" 0 0 ch)) ++ (bs ++ writeUint32 0))) =
        (some 1, writeUint32 (funcCount (.mk "__main__" 0 0 ch)) ++ (bs ++ writeUint32 0)) :=
      rfl
    have hn : readUint32 (writeUint32 (funcCount (.mk "__main__" 0 0 ch)) ++
        (bs ++ writeUint32 0)) =
        ((funcCount (.mk "__main__" 0 0 ch) : Int), bs ++ writeUint32 0) :=
      readUint32_write _ _ (by omega)
    have hfns : readFunctions E (funcCount (.mk "__main__" 0 0 ch)) (bs ++ writeUint32 0) =
        .ok (rawList (.mk "__main__" 0 0 ch) 0, writeUint32 0) := hread (writeUint32 0)
    have h0 : readUint32 (writeUint32 0) = ((0 : Int), []) := by
      have := readUint32_write 0 [] (by norm_num)
      simpa using this
    have h0lt : (0 : Int) < ((rawList (.mk "__main__" 0 0 ch) 0).length : Int) := by
      rw [rawList_length]
      exact_mod_cast funcCount_pos (.mk "__main__" 0 0 ch)
    have hres : resolveFunc (rawList (.mk "__main__" 0 0 ch) 0)
        ((rawList (.mk "__main__" 0 0 ch) 0).length + 1) 0 = some (.mk "__main__" 0 0 ch) := by
      refine resolve_ok E _ _ (.mk "__main__" 0 0 ch) 0 hwfF ?_ ?_ ?_
      · rw [rawList_length]; omega
      · intro k hk; rw [Nat.zero_add]
      · rw [rawList_length]; omega
    simp only [deserialize, List.append_assoc, hm, hv, hn, Int.toNat_natCast, hfns, h0]
    simp [VERSION, h0lt, hres, BCFunc.chunk]

/-- C3 witness: a concrete codec and a chunk with a nested function
satisfy the round-trip theorem's hypotheses, so its container
round-trips. -/
theorem claim3_witness :
    wfChunk serEnvW chunkW = true ∧
    (∃ bs, serialize serEnvW chunkW = .ok bs ∧ deserialize serEnvW bs = .ok chunkW) :=
  ⟨by simp [wfChunk, wfConsts, wfConst, wfFunc, wfStrB, wfNumB, serEnvW, chunkW,
      Op.PUSH_CONST, Op.HALT, Op.RETURN],
   claim3_theorem serEnvW chunkW
    (by simp [wfChunk, wfConsts, wfConst, wfFunc, wfStrB, wfNumB, serEnvW, chunkW,
      Op.PUSH_CONST, Op.HALT, Op.RETURN])
    (by simp [wfStrB, serEnvW])
    (by simp [funcCount, constsFuncCount, chunkW])⟩

/-- C6 counterexample: the 42-byte container of the empty chunk is
genuine serializer output; removing its final byte gives truncated
input that `deserialize` still accepts, silently returning the same
chunk instead of failing — the deserialiser has no bounds check
(`readByte` yields JS `undefined` past the end of the buffer, and the
final `readUint32` coerces the missing byte to 0). -/
theorem claim6_counterexample :
    serialize serEnvW ⟨[], [], []⟩ = .ok emptyChunkBytes ∧
    truncatedBytes = emptyChunkBytes.take 41 ∧
    emptyChunkBytes.length = 42 ∧
    deserialize serEnvW truncatedBytes = .ok ⟨[], [], []⟩ := by
  refine ⟨?_, rfl, rfl, rfl⟩
  simp only [serialize, serTree, serFunction, serForest, serConstants, funcCount,
    constsFuncCount, Chunk.constants, Chunk.code, Chunk.lines, exceptBindOk]
  rfl

/-- C6 (amended): the deserialiser hard-fails on a wrong 5-byte magic,
on a wrong version byte, and on an unknown constant type tag; but
truncated input is NOT reliably detected — reads past the end yield JS
`undefined`, so a truncation is caught only when it happens to corrupt
one of those guarded fields, and some truncated inputs deserialize
silently (see the counterexample). -/
theorem claim6_theorem (E : SerEnv) :
    (∀ bytes, (readBytes 5 bytes).1 ≠ MAGIC.map some →
      deserialize E bytes = .error .badMagic) ∧
    (∀ bytes, (readBytes 5 bytes).1 = MAGIC.map some →
      (readByte (readBytes 5 bytes).2).1 ≠ some VERSION →
      deserialize E bytes = .error (.badVersion (readByte (readBytes 5 bytes).2).1)) ∧
    (∀ (b : Nat) (rest : List Nat), TYPE_FUNCTION < b →
      readConstant E (b :: rest) = .error (.unknownConstType (some b))) := by
  refine ⟨fun bytes hmag => ?_, fun bytes hmag hver => ?_, fun b rest hb => ?_⟩
  · simp only [deserialize]
    rw [if_pos hmag]
  · simp only [deserialize]
    rw [if_neg (by simp [hmag]), if_pos hver]
  · simp only [readConstant, readByte, TYPE_FUNCTION] at hb ⊢
    rw [if_neg (by simp [TYPE_NULL]; omega), if_neg (by simp [TYPE_BOOL]; omega),
      if_neg (by simp [TYPE_NUMBER]; omega), if_neg (by simp [TYPE_STRING]; omega),
      if_neg (by simp [TYPE_FUNCTION]; omega)]

/-- C6 witness: concrete inputs exercising each hard-error guarantee of
the amended theorem. -/
theorem claim6_witness :
    deserialize serEnvW [9, 9, 9, 9, 9] = .error .badMagic ∧
    deserialize serEnvW (MAGIC ++ [7]) = .error (.badVersion (some 7)) ∧
    readConstant serEnvW [9] = .error (.unknownConstType (some 9)) :=
  ⟨(claim6_theorem serEnvW).1 [9, 9, 9, 9, 9] (by decide),
   (claim6_theorem serEnvW).2.1 (MAGIC ++ [7]) (by decide) (by decide),
   (claim6_theorem serEnvW).2.2 9 [] (by decide)⟩

end Tmbdl
